import Mathlib

/-!
The eSIaaS provider node: a shallow embedding of the provider node of
`the-mhdi/eSIaaS`:

* `core/p2p/message.go`  : the message codec (`EncodeMessage`, `DecodeMessage`);
* `core/p2p/protocol.go` : the protocol layer (`SendMessage`, `handleStream`);
* `core/p2p/p2p.go`      : the overlay service (`P2PService.Start` and its handlers);
* `core/node/node.go`    : the service supervisor (`Node.Start`, `Node.Stop`).

Byte strings are lists of Unicode scalar values (`Bytes`): Go strings are taken to be
valid UTF-8, and in UTF-8 the byte `0x0A` occurs only as the encoding of the
character `'\n'`.  Calls into external collaborators (the libp2p host, the Kademlia
DHT, supervised services) are modelled by their outcome, and the calls a function
makes are recorded in an explicit trace.

The codec is a thin wrapper around Go's `encoding/json`, which is modelled here by
its documented behaviour: the RFC 8259 grammar, the escaping rules of `Marshal`, and
the struct-decoding rules of `Unmarshal`.  Floating point formatting and the
resource limits of the library are outside the model.
-/

namespace ESIaaS

/-- Byte strings, as lists of characters. -/
abbrev Bytes := List Char

/-- Go `error` values: the message and the error wrapped with `%w`, if any. -/
inductive Error where
  | mk (msg : Bytes) (cause : Option Error)

/-- The text of an error, `err.Error()`. -/
def Error.msg : Error → Bytes
  | .mk m _ => m

/-- The wrapped error, `errors.Unwrap(err)`. -/
def Error.unwrap : Error → Option Error
  | .mk _ c => c

/-- `errors.New(msg)`. -/
def Error.new (msg : Bytes) : Error := .mk msg none

/-- `fmt.Errorf(pre + "%w", err)`: the text is `pre` followed by the text of `err`,
and the result wraps `err`. -/
def Error.wrap (pre : Bytes) (err : Error) : Error := .mk (pre ++ err.msg) (some err)

/-! ## `encoding/json`: values and `Marshal` -/

namespace json

/-- Go values handed to `json.Marshal`, by the shape of their encoding. -/
inductive GoValue where
  /-- A nil interface, pointer, slice or map. -/
  | null
  | bool (b : Bool)
  | int (i : Int)
  /-- A `json.Number`: a numeric literal kept as text. -/
  | number (lit : Bytes)
  | str (s : Bytes)
  /-- A non-nil slice or array. -/
  | slice (xs : List GoValue)
  /-- A struct (fields in declaration order) or a map (keys sorted). -/
  | object (fs : List (Bytes × GoValue))
  /-- A value `Marshal` rejects: a channel, a function, a complex number. -/
  | unsupported

/-- The table `hex` of encode.go. -/
def hexDigit (n : Nat) : Char :=
  if n < 10 then Char.ofNat (48 + n) else Char.ofNat (87 + n)

/-- The table `htmlSafeSet`: the ASCII characters `appendString` copies unchanged
when HTML escaping is on. -/
def htmlSafe (c : Char) : Bool :=
  decide (32 ≤ c.toNat ∧ c.toNat < 128 ∧ c ≠ '"' ∧ c ≠ '\\' ∧ c ≠ '<' ∧ c ≠ '>' ∧ c ≠ '&')

/-- What `appendString` (with `escapeHTML` set, as `Marshal` does) emits for one
character of a string. -/
def escapeChar (c : Char) : Bytes :=
  if c.toNat < 128 then
    if htmlSafe c then [c]
    else if c = '\\' ∨ c = '"' then ['\\', c]
    else if c.toNat = 8 then ['\\', 'b']
    else if c.toNat = 12 then ['\\', 'f']
    else if c = '\n' then ['\\', 'n']
    else if c = '\r' then ['\\', 'r']
    else if c = '\t' then ['\\', 't']
    else ['\\', 'u', '0', '0', hexDigit (c.toNat / 16), hexDigit (c.toNat % 16)]
  else if c.toNat = 0x2028 ∨ c.toNat = 0x2029 then
    ['\\', 'u', '2', '0', '2', hexDigit (c.toNat % 16)]
  else [c]

/-- The body of a JSON string literal: every character escaped in turn. -/
def escapeString : Bytes → Bytes
  | [] => []
  | c :: s => escapeChar c ++ escapeString s

/-- The function `appendString`: a quoted, escaped JSON string literal. -/
def appendString (s : Bytes) : Bytes := '"' :: (escapeString s ++ ['"'])

/-- ASCII decimal digits. -/
def isDigit (c : Char) : Bool := decide (48 ≤ c.toNat ∧ c.toNat ≤ 57)

/-- Drops the leading decimal digits. -/
def skipDigits : Bytes → Bytes
  | [] => []
  | c :: s => if isDigit c then skipDigits s else c :: s

/-- The function `isValidNumber` of encode.go, returning what follows the digits of
the integer part (after the optional minus sign), if that part is well formed. -/
def validInt (s : Bytes) : Option Bytes :=
  match s with
  | [] => none
  | c :: r => if c = '0' then some r else if isDigit c then some (skipDigits r) else none

/-- The fraction step of `isValidNumber`: a dot followed by one or more digits is
dropped, anything else is left in place. -/
def validFrac (s : Bytes) : Bytes :=
  match s with
  | c :: d :: r => if c = '.' ∧ isDigit d then skipDigits r else s
  | _ => s

/-- The exponent step of `isValidNumber`; `none` is its early `return false`. -/
def validExp (s : Bytes) : Option Bytes :=
  match s with
  | c :: d :: r =>
    if c = 'e' ∨ c = 'E' then
      if d = '+' ∨ d = '-' then (if r = [] then none else some (skipDigits r))
      else some (skipDigits (d :: r))
    else some s
  | _ => some s

/-- The function `isValidNumber` of encode.go. -/
def isValidNumber (s : Bytes) : Bool :=
  match s with
  | [] => false
  | c :: r =>
    let s1 := if c = '-' then r else s
    if s1 = [] then false
    else
      match validInt s1 with
      | none => false
      | some s2 =>
        match validExp (validFrac s2) with
        | none => false
        | some s3 => decide (s3 = [])

/-- Decimal digits of a natural number, most significant first (`strconv`). -/
def formatNatAux : Nat → Nat → Bytes → Bytes
  | 0, _, acc => acc
  | fuel + 1, n, acc =>
    if n < 10 then Char.ofNat (48 + n) :: acc
    else formatNatAux fuel (n / 10) (Char.ofNat (48 + n % 10) :: acc)

/-- The decimal text of a natural number. -/
def formatNat (n : Nat) : Bytes := formatNatAux (n + 1) n []

/-- The decimal text of an integer, `strconv.AppendInt(_, i, 10)`. -/
def formatInt (i : Int) : Bytes :=
  if i < 0 then '-' :: formatNat i.natAbs else formatNat i.natAbs

mutual
/-- The encoder of `json.Marshal`: the compact encoding of a value, or `none` when
the value cannot be encoded. -/
def marshalValue : GoValue → Option Bytes
  | .null => some ['n', 'u', 'l', 'l']
  | .bool b => some (if b then ['t', 'r', 'u', 'e'] else ['f', 'a', 'l', 's', 'e'])
  | .int i => some (formatInt i)
  | .number lit =>
    let s := if lit = [] then ['0'] else lit
    if isValidNumber s then some s else none
  | .str s => some (appendString s)
  | .slice xs =>
    match marshalElems xs with
    | some b => some ('[' :: (b ++ [']']))
    | none => none
  | .object fs =>
    match marshalFields fs with
    | some b => some ('{' :: (b ++ ['}']))
    | none => none
  | .unsupported => none
/-- The elements of an array, separated by commas. -/
def marshalElems : List GoValue → Option Bytes
  | [] => some []
  | x :: xs =>
    match marshalValue x, marshalElems xs with
    | some a, some b => some (if xs.isEmpty then a else a ++ ',' :: b)
    | _, _ => none
/-- The members of an object, separated by commas. -/
def marshalFields : List (Bytes × GoValue) → Option Bytes
  | [] => some []
  | (k, x) :: fs =>
    match marshalValue x, marshalFields fs with
    | some a, some b =>
      some (if fs.isEmpty then appendString k ++ ':' :: a
            else appendString k ++ ':' :: (a ++ ',' :: b))
    | _, _ => none
end

/-- The function `json.Marshal`. -/
def Marshal (v : GoValue) : Except Error Bytes :=
  match marshalValue v with
  | some b => .ok b
  | none => .error (Error.new "json: unsupported value".toList)

/-! ## `encoding/json`: the scanner and `Unmarshal` -/

/-- The function `isSpace` of scanner.go. -/
def isSpace (c : Char) : Bool := decide (c = ' ' ∨ c = '\t' ∨ c = '\r' ∨ c = '\n')

/-- Drops leading insignificant whitespace. -/
def skipSpace : Bytes → Bytes
  | [] => []
  | c :: s => if isSpace c then skipSpace s else c :: s

/-- The value of a hexadecimal digit. -/
def hexVal (c : Char) : Option Nat :=
  if 48 ≤ c.toNat ∧ c.toNat ≤ 57 then some (c.toNat - 48)
  else if 97 ≤ c.toNat ∧ c.toNat ≤ 102 then some (c.toNat - 87)
  else if 65 ≤ c.toNat ∧ c.toNat ≤ 70 then some (c.toNat - 55)
  else none

/-- The value of four hexadecimal digits, as `getu4` computes it. -/
def hex4 (a b c d : Char) : Option Nat :=
  match hexVal a, hexVal b, hexVal c, hexVal d with
  | some x, some y, some z, some w => some (((x * 16 + y) * 16 + z) * 16 + w)
  | _, _, _, _ => none

/-- The function `getu4` of decode.go: the code unit of a leading `\uXXXX`. -/
def getu4 (s : Bytes) : Option Nat :=
  match s with
  | e :: u :: a :: b :: c :: d :: _ => if e = '\\' ∧ u = 'u' then hex4 a b c d else none
  | _ => none

/-- The character a one-letter escape stands for, for the letters the scanner
accepts after a backslash. -/
def simpleEscape (e : Char) : Option Char :=
  if e = '"' ∨ e = '\\' ∨ e = '/' then some e
  else if e = 'b' then some (Char.ofNat 8)
  else if e = 'f' then some (Char.ofNat 12)
  else if e = 'n' then some '\n'
  else if e = 'r' then some '\r'
  else if e = 't' then some '\t'
  else none

/-- The rule `utf16.IsSurrogate`. -/
def isSurrogate (r : Nat) : Bool := decide (0xd800 ≤ r ∧ r < 0xe000)

/-- The function `utf16.DecodeRune`, `none` standing for the replacement rune. -/
def decodeSurrogates (r1 r2 : Nat) : Option Char :=
  if 0xd800 ≤ r1 ∧ r1 < 0xdc00 ∧ 0xdc00 ≤ r2 ∧ r2 < 0xe000 then
    some (Char.ofNat ((r1 - 0xd800) * 1024 + (r2 - 0xdc00) + 0x10000))
  else none

/-- The rune `unicode.ReplacementChar`. -/
def replacementChar : Char := Char.ofNat 0xfffd

/-- Decodes the escape sequence that follows a backslash, as the scanner accepts it
and `unquote` reads it: the character it stands for and the input after it.  A
`\uXXXX` that is half of a surrogate pair is combined with the `\uXXXX` after it
when the two form a pair, and stands for the replacement rune otherwise. -/
def unescape (s : Bytes) : Option (Char × Bytes) :=
  match s with
  | [] => none
  | e :: rest1 =>
    if e = 'u' then
      match rest1 with
      | a :: b :: c :: d :: rest2 =>
        match hex4 a b c d with
        | none => none
        | some rr =>
          if isSurrogate rr then
            match (getu4 rest2).bind (decodeSurrogates rr) with
            | some ch => some (ch, rest2.drop 6)
            | none => some (replacementChar, rest2)
          else some (Char.ofNat rr, rest2)
      | _ => none
    else (simpleEscape e).map (fun x => (x, rest1))

/-- Reads a string literal after its opening quote: the scanner's string states
together with `unquote`.  Returns the decoded text and what follows the closing
quote; `none` is a syntax error.  The first argument bounds the recursion and is
more than the length of the input wherever the function is called. -/
def unquoteBody : Nat → Bytes → Option (Bytes × Bytes)
  | 0, _ => none
  | n + 1, s =>
    match s with
    | [] => none
    | c :: rest =>
      if c = '"' then some ([], rest)
      else if c = '\\' then
        match unescape rest with
        | none => none
        | some (x, rest1) => (unquoteBody n rest1).map (fun p => (x :: p.1, p.2))
      else if c.toNat < 32 then none
      else (unquoteBody n rest).map (fun p => (c :: p.1, p.2))

/-- Scanner: one or more digits. -/
def scanDigits1 (s : Bytes) : Option Bytes :=
  match s with
  | c :: r => if isDigit c then some (skipDigits r) else none
  | [] => none

/-- Scanner: an optional exponent (states `stateE`, `stateESign`, `stateE0`). -/
def scanExp (s : Bytes) : Option Bytes :=
  match s with
  | c :: r =>
    if c = 'e' ∨ c = 'E' then
      match r with
      | d :: r2 => if d = '+' ∨ d = '-' then scanDigits1 r2 else scanDigits1 r
      | [] => none
    else some s
  | [] => some []

/-- Scanner: an optional fraction, then an optional exponent. -/
def scanFrac (s : Bytes) : Option Bytes :=
  match s with
  | c :: r => if c = '.' then (scanDigits1 r).bind scanExp else scanExp s
  | [] => some []

/-- Scanner: the integer part (`state0`, `state1`). -/
def scanInt (s : Bytes) : Option Bytes :=
  match s with
  | c :: r => if c = '0' then some r else if isDigit c then some (skipDigits r) else none
  | [] => none

/-- Scanner: a number; returns what follows it. -/
def scanNumber (s : Bytes) : Option Bytes :=
  match s with
  | c :: r => (if c = '-' then scanInt r else scanInt s).bind scanFrac
  | [] => none

/-- Scanner: the rest of a literal `true`, `false` or `null` after its first letter. -/
def scanLiteral (lit : Bytes) (s : Bytes) : Option Bytes :=
  if s.take lit.length = lit then some (s.drop lit.length) else none

/-- What the decoder learns about a value it has scanned. -/
inductive Kind where
  | null
  | bool (b : Bool)
  | number
  | string (s : Bytes)
  | array
  | object
  deriving DecidableEq

/-- A member of a JSON object as the decoder sees it: the unquoted key, the raw
text of the value and the kind of the value. -/
structure Member where
  key : Bytes
  raw : Bytes
  kind : Kind
  deriving DecidableEq

mutual
/-- Scans one JSON value at the head of the input and returns its kind and what
follows it; `none` is a syntax error.  The first argument bounds the recursion and
is at least the length of the input wherever the function is called. -/
def scanValue : Nat → Bytes → Option (Kind × Bytes)
  | 0, _ => none
  | n + 1, s =>
    match s with
    | [] => none
    | c :: rest =>
      if c = '{' then
        match skipSpace rest with
        | [] => none
        | c1 :: r1 =>
          if c1 = '}' then some (Kind.object, r1)
          else (scanMembers n (c1 :: r1)).map (fun p => (Kind.object, p.2))
      else if c = '[' then
        match skipSpace rest with
        | [] => none
        | c1 :: r1 =>
          if c1 = ']' then some (Kind.array, r1)
          else (scanElems n (c1 :: r1)).map (fun r => (Kind.array, r))
      else if c = '"' then (unquoteBody n rest).map (fun p => (Kind.string p.1, p.2))
      else if c = 't' then (scanLiteral ['r', 'u', 'e'] rest).map (fun r => (Kind.bool true, r))
      else if c = 'f' then
        (scanLiteral ['a', 'l', 's', 'e'] rest).map (fun r => (Kind.bool false, r))
      else if c = 'n' then (scanLiteral ['u', 'l', 'l'] rest).map (fun r => (Kind.null, r))
      else if c = '-' ∨ isDigit c then (scanNumber s).map (fun r => (Kind.number, r))
      else none
/-- Scans the elements of an array from the start of an element to the closing
bracket, and returns what follows the bracket. -/
def scanElems : Nat → Bytes → Option Bytes
  | 0, _ => none
  | n + 1, s =>
    match scanValue n s with
    | none => none
    | some (_, r) =>
      match skipSpace r with
      | [] => none
      | c :: r1 =>
        if c = ',' then scanElems n (skipSpace r1)
        else if c = ']' then some r1
        else none
/-- Scans the members of an object from the start of a key to the closing brace,
and returns the members and what follows the brace. -/
def scanMembers : Nat → Bytes → Option (List Member × Bytes)
  | 0, _ => none
  | n + 1, s =>
    match s with
    | [] => none
    | q :: r0 =>
      if q = '"' then
        match unquoteBody n r0 with
        | none => none
        | some (key, r1) =>
          match skipSpace r1 with
          | [] => none
          | c1 :: r2 =>
            if c1 = ':' then
              match scanValue n (skipSpace r2) with
              | none => none
              | some (k, r3) =>
                let v := skipSpace r2
                let m : Member := ⟨key, v.take (v.length - r3.length), k⟩
                match skipSpace r3 with
                | [] => none
                | c2 :: r4 =>
                  if c2 = ',' then
                    (scanMembers n (skipSpace r4)).map (fun p => (m :: p.1, p.2))
                  else if c2 = '}' then some ([m], r4)
                  else none
            else none
      else none
end

/-- The function `checkValid` of scanner.go: the input is one JSON value between
optional whitespace. -/
def checkValid (b : Bytes) : Bool :=
  match scanValue (b.length + 1) (skipSpace b) with
  | some (_, r) => decide (skipSpace r = [])
  | none => false

/-- The members of the object at the head of the input, as `decodeState.object`
walks them. -/
def objectMembers (s : Bytes) : Option (List Member) :=
  match s with
  | [] => none
  | c :: rest =>
    if c = '{' then
      match skipSpace rest with
      | [] => none
      | c1 :: r1 =>
        if c1 = '}' then some []
        else (scanMembers (s.length + 1) (c1 :: r1)).map (fun p => p.1)
    else none

/-- The function `foldRune` on the runes that matter for matching ASCII field
names: ASCII letters fold to upper case, and the two non-ASCII runes with an ASCII
letter in their fold orbit (long s, Kelvin sign) fold to that letter. -/
def foldChar (c : Char) : Char :=
  if 97 ≤ c.toNat ∧ c.toNat ≤ 122 then Char.ofNat (c.toNat - 32)
  else if c.toNat = 0x17f then 'S'
  else if c.toNat = 0x212a then 'K'
  else c

/-- The function `foldName` of fold.go. -/
def foldName (key : Bytes) : Bytes := key.map foldChar

/-- Whether an object key selects the struct field with the JSON name `name`: the
exact name, or failing that a case-insensitive match. -/
def keyMatches (key name : Bytes) : Bool := decide (key = name ∨ foldName key = foldName name)

/-- The function `appendCompact` (with `escape` set) on well-formed input, one
character at a time: whitespace outside strings is dropped, and inside strings the
characters `<`, `>`, `&`, U+2028 and U+2029 are replaced by their escapes.  The two
flags say whether the scanner is inside a string and whether the previous character
was the backslash of an escape. -/
def compactChars : Bool → Bool → Bytes → Bytes
  | _, _, [] => []
  | false, _, c :: s =>
    if isSpace c then compactChars false false s
    else if c = '"' then c :: compactChars true false s
    else c :: compactChars false false s
  | true, true, c :: s => c :: compactChars true false s
  | true, false, c :: s =>
    if c = '\\' then c :: compactChars true true s
    else if c = '"' then c :: compactChars false false s
    else if c = '<' ∨ c = '>' ∨ c = '&' then
      ['\\', 'u', '0', '0', hexDigit (c.toNat / 16), hexDigit (c.toNat % 16)]
        ++ compactChars true false s
    else if c.toNat = 0x2028 ∨ c.toNat = 0x2029 then
      ['\\', 'u', '2', '0', '2', hexDigit (c.toNat % 16)] ++ compactChars true false s
    else c :: compactChars true false s

/-- The function `appendCompact`: fails on input that is not valid JSON. -/
def compact (b : Bytes) : Option Bytes :=
  if checkValid b then some (compactChars false false b) else none

/-- What `Unmarshal` finds at the top of its input when the target is a struct. -/
inductive Decoded where
  /-- The input is not valid JSON (`SyntaxError`). -/
  | invalid
  /-- The literal `null`: the target is left unchanged. -/
  | null
  /-- An object, with its members in input order. -/
  | members (ms : List Member)
  /-- Any other value (`UnmarshalTypeError`). -/
  | mismatch
  deriving DecidableEq

/-- The first steps of `Unmarshal` into a struct: `checkValid`, then the dispatch of
`decodeState.value` on the first significant character. -/
def decodeStruct (b : Bytes) : Decoded :=
  if checkValid b then
    match skipSpace b with
    | [] => Decoded.invalid
    | c :: rest =>
      if c = 'n' then Decoded.null
      else if c = '{' then
        match objectMembers (c :: rest) with
        | some ms => Decoded.members ms
        | none => Decoded.invalid
      else Decoded.mismatch
  else Decoded.invalid

/-- The error `SyntaxError` of `Unmarshal` (text abbreviated). -/
def syntaxError : Error := Error.new "json: syntax error".toList

/-- The error `UnmarshalTypeError` of `Unmarshal` (text abbreviated). -/
def typeError : Error := Error.new "json: cannot unmarshal value into Go value".toList

/-- Storing a scanned value into a struct field of kind string: a string is stored,
`null` leaves the field alone, anything else is an `UnmarshalTypeError`, of which
`saveError` keeps the first. -/
def storeString (cur : Bytes) (saved : Option Error) (k : Kind) : Bytes × Option Error :=
  match k with
  | Kind.string s => (s, saved)
  | Kind.null => (cur, saved)
  | _ => (cur, match saved with | some e => some e | none => some typeError)

end json

open json

/-! ## `core/p2p/message.go` -/

/-- The type `MessageType`. -/
abbrev MessageType := Bytes

/-- The constant `MsgTypePing`. -/
def MsgTypePing : MessageType := "ping".toList
/-- The constant `MsgTypePong`. -/
def MsgTypePong : MessageType := "pong".toList
/-- The constant `MsgTypeServiceAnnounce`. -/
def MsgTypeServiceAnnounce : MessageType := "service_announce".toList
/-- The constant `MsgTypeServiceQuery`. -/
def MsgTypeServiceQuery : MessageType := "service_query".toList
/-- The constant `MsgTypeServiceResponse`. -/
def MsgTypeServiceResponse : MessageType := "service_response".toList

/-- The struct `Message`.  The field `Typ` is the Go field `Type`; `Data` is a
`json.RawMessage`, `none` being the nil slice. -/
structure Message where
  Typ : MessageType := []
  Data : Option Bytes := none
  deriving DecidableEq

/-- The struct `ServiceQuery`. -/
structure ServiceQuery where
  ServiceID : Bytes := []
  deriving DecidableEq

/-- The struct `ServiceResponse`. -/
structure ServiceResponse where
  ServiceID : Bytes := []
  Providers : List Bytes := []
  deriving DecidableEq

/-- A `ServiceResponse` as a value handed to `json.Marshal`: its two tagged fields
in declaration order, `Providers` being a non-nil slice of strings. -/
def ServiceResponse.toGoValue (r : ServiceResponse) : GoValue :=
  GoValue.object [("service_id".toList, GoValue.str r.ServiceID),
    ("providers".toList, GoValue.slice (r.Providers.map GoValue.str))]

/-- A `ServiceQuery` as a value handed to `json.Marshal`. -/
def ServiceQuery.toGoValue (q : ServiceQuery) : GoValue :=
  GoValue.object [("service_id".toList, GoValue.str q.ServiceID)]

/-- The call `json.Marshal(envelope)` on a `Message`: the field `type` as a string
literal, the field `data` as `RawMessage.MarshalJSON` returns it (`null` for a nil
slice) and as the encoder compacts it. -/
def Message.marshal (m : Message) : Except Error Bytes :=
  match compact (m.Data.getD ['n', 'u', 'l', 'l']) with
  | none => .error (Error.new "json: error calling MarshalJSON for type json.RawMessage".toList)
  | some d =>
    .ok ('{' :: ("\"type\":".toList ++ appendString m.Typ ++ ",\"data\":".toList ++ d ++ ['}']))

/-- One step of `decodeState.object` on a `Message`: the member is stored in the
field its key selects, and ignored when it selects none. -/
def Message.setField (st : Message × Option Error) (mem : Member) : Message × Option Error :=
  if keyMatches mem.key "type".toList then
    let r := storeString st.1.Typ st.2 mem.kind
    ({ st.1 with Typ := r.1 }, r.2)
  else if keyMatches mem.key "data".toList then
    ({ st.1 with Data := some mem.raw }, st.2)
  else st

/-- The call `json.Unmarshal(b, &m)` on a zero `Message`. -/
def Message.unmarshal (b : Bytes) : Except Error Message :=
  match decodeStruct b with
  | Decoded.invalid => .error syntaxError
  | Decoded.mismatch => .error typeError
  | Decoded.null => .ok {}
  | Decoded.members ms =>
    match ms.foldl Message.setField ({}, none) with
    | (m, none) => .ok m
    | (_, some e) => .error e

/-- One step of `decodeState.object` on a `ServiceQuery`. -/
def ServiceQuery.setField (st : ServiceQuery × Option Error) (mem : Member) :
    ServiceQuery × Option Error :=
  if keyMatches mem.key "service_id".toList then
    let r := storeString st.1.ServiceID st.2 mem.kind
    ({ ServiceID := r.1 }, r.2)
  else st

/-- The call `json.Unmarshal(b, &q)` on a zero `ServiceQuery`: the struct as the
call leaves it, and the error it returns. -/
def ServiceQuery.unmarshal (b : Bytes) : ServiceQuery × Option Error :=
  match decodeStruct b with
  | Decoded.invalid => ({}, some syntaxError)
  | Decoded.mismatch => ({}, some typeError)
  | Decoded.null => ({}, none)
  | Decoded.members ms => ms.foldl ServiceQuery.setField ({}, none)

/-- The function `EncodeMessage`. -/
def EncodeMessage (msgType : MessageType) (data : GoValue) : Except Error Bytes :=
  match Marshal data with
  | .error err => .error err
  | .ok b => Message.marshal { Typ := msgType, Data := some b }

/-- The function `DecodeMessage`. -/
def DecodeMessage (b : Bytes) : Except Error Message :=
  match Message.unmarshal b with
  | .error err => .error (Error.wrap "decode failed: ".toList err)
  | .ok m => .ok m

/-! ## `core/p2p/protocol.go` -/

/-- The type `peer.ID`, an opaque identity owned by the transport. -/
abbrev PeerID := Bytes

/-- What a handler does: the calls it makes on the directory and on the protocol. -/
inductive Action where
  /-- The call `kdht.GetValue(ctx, key)`. -/
  | getValue (key : Bytes)
  /-- The call `proto.SendMessage(ctx, dest, msgType, data)`. -/
  | sendMessage (dest : PeerID) (msgType : MessageType) (data : GoValue)

/-- The type `HandlerFunc`: a handler, by the calls it makes for a message from a
peer. -/
abbrev HandlerFunc := PeerID → Message → List Action

/-- The struct `Protocol`: the map `handlers`, as an association list in which the
first entry for a key is the live one. -/
structure Protocol where
  handlers : List (MessageType × HandlerFunc) := []

/-- The function `NewProtocol`: an empty handler map. -/
def NewProtocol : Protocol := {}

/-- The method `RegisterHandler`: `p.handlers[msgType] = handler`. -/
def Protocol.RegisterHandler (p : Protocol) (msgType : MessageType) (handler : HandlerFunc) :
    Protocol :=
  { handlers := (msgType, handler) :: p.handlers.filter (fun e => decide (e.1 ≠ msgType)) }

/-- The lookup `p.handlers[msgType]`. -/
def Protocol.handler (p : Protocol) (msgType : MessageType) : Option HandlerFunc :=
  p.handlers.lookup msgType

/-- How the host behaves for one outbound stream: the error of `NewStream` and the
error of `Write`, if any. -/
structure StreamOutcome where
  openErr : Option Error := none
  writeErr : Option Error := none

/-- The calls `SendMessage` makes on the host and on the stream it opens. -/
inductive NetCall where
  /-- The call `host.NewStream(ctx, dest, ProtocolID)`. -/
  | newStream (dest : PeerID)
  /-- The call `s.Write(b)`. -/
  | write (b : Bytes)
  /-- The deferred call `s.Close()`. -/
  | close

/-- The method `SendMessage`: the calls it makes, in order, and the error it
returns. -/
def Protocol.SendMessage (host : PeerID → StreamOutcome) (dest : PeerID) (msgType : MessageType)
    (data : GoValue) : List NetCall × Option Error :=
  match (host dest).openErr with
  | some err => ([NetCall.newStream dest], some err)
  | none =>
    match EncodeMessage msgType data with
    | .error err => ([NetCall.newStream dest, NetCall.close], some err)
    | .ok payload =>
      ([NetCall.newStream dest, NetCall.write (payload ++ ['\n']), NetCall.close],
        (host dest).writeErr)

/-- The method `bufio.Reader.ReadBytes` on the bytes the stream still delivers: the
bytes through the first delimiter and the bytes after it, or `none` when the stream
ends (end of stream or a read error) before a delimiter is found. -/
def ReadBytes (delim : Char) : Bytes → Option (Bytes × Bytes)
  | [] => none
  | c :: s =>
    if c = delim then some ([c], s)
    else (ReadBytes delim s).map (fun p => (c :: p.1, p.2))

/-- Whether `sub` occurs at the head of `s`. -/
def startsWith (sub : Bytes) (s : Bytes) : Bool := decide (s.take sub.length = sub)

/-- The function `strings.Contains`. -/
def contains (sub : Bytes) : Bytes → Bool
  | [] => startsWith sub []
  | c :: s => startsWith sub (c :: s) || contains sub s

/-- What `handleStream` does for an inbound stream, in order. -/
inductive StreamEvent where
  /-- The statement `go handler(p.ctx, from, msg)`. -/
  | dispatch (handler : HandlerFunc) (sender : PeerID) (msg : Message)
  /-- The warning "failed to decode message". -/
  | warnDecode (err : Error)
  /-- The debug line "no handler for message". -/
  | debugNoHandler (msgType : MessageType)
  /-- The warning "stream read error". -/
  | warnRead (err : Error)
  /-- The deferred call `s.Close()`, on return. -/
  | close

/-- The read loop of `handleStream`.  `stream` is what the stream still delivers and
`final` is the error that ends it (`none` is `io.EOF`).  The first argument bounds
the number of iterations; each iteration consumes at least one byte. -/
def handleStreamLoop (p : Protocol) (sender : PeerID) (final : Option Error) :
    Nat → Bytes → List StreamEvent
  | 0, _ => []
  | n + 1, stream =>
    match ReadBytes '\n' stream with
    | none =>
      match final with
      | some err =>
        if contains "closed".toList err.msg then [StreamEvent.close]
        else [StreamEvent.warnRead err, StreamEvent.close]
      | none => [StreamEvent.close]
    | some (line, rest) =>
      match DecodeMessage line with
      | .error err => StreamEvent.warnDecode err :: handleStreamLoop p sender final n rest
      | .ok msg =>
        match p.handler msg.Typ with
        | some handler =>
          StreamEvent.dispatch handler sender msg :: handleStreamLoop p sender final n rest
        | none =>
          StreamEvent.debugNoHandler msg.Typ :: handleStreamLoop p sender final n rest

/-- The method `handleStream`, for a stream from `sender` that delivers `stream` and
then ends with `final`. -/
def Protocol.handleStream (p : Protocol) (sender : PeerID) (stream : Bytes)
    (final : Option Error) : List StreamEvent :=
  handleStreamLoop p sender final (stream.length + 1) stream

/-- The handler invocations among the events of a stream, in order: the handler
started, the sender and the message handed to it. -/
def dispatched : List StreamEvent → List (HandlerFunc × PeerID × Message)
  | [] => []
  | StreamEvent.dispatch handler sender msg :: es => (handler, sender, msg) :: dispatched es
  | _ :: es => dispatched es

/-- The messages handed to a handler among the events of a stream, in order. -/
def dispatchedMessages (es : List StreamEvent) : List Message :=
  (dispatched es).map (fun d => d.2.2)

/-- A stream made of records: each body followed by the delimiter. -/
def frame : List Bytes → Bytes
  | [] => []
  | b :: bs => b ++ '\n' :: frame bs

/-- The handler invocation a record calls for: the record decodes and a handler is
registered for its type. -/
def Protocol.route (p : Protocol) (sender : PeerID) (line : Bytes) :
    Option (HandlerFunc × PeerID × Message) :=
  match DecodeMessage line with
  | .error _ => none
  | .ok msg =>
    match p.handler msg.Typ with
    | some handler => some (handler, sender, msg)
    | none => none

/-! ## `core/p2p/p2p.go` -/

/-- The struct `P2PService`, with the behaviour of its collaborators: the parsed
bootstrap peers, the outcome of `kdht.Bootstrap`, the outcome of `host.Connect` for
each peer, and the result of `kdht.GetValue` for each key. -/
structure P2PService where
  bootstrapPeers : List PeerID := []
  bootstrap : Option Error := none
  connect : PeerID → Option Error := fun _ => none
  getValue : Bytes → Bytes × Option Error := fun _ => ([], none)

/-- The method `Name`. -/
def P2PService.Name (_ : P2PService) : Bytes := "p2p".toList

/-- The response the `MsgTypeServiceQuery` handler builds for a message. -/
def P2PService.serviceQueryResponse (p : P2PService) (msg : Message) : ServiceResponse :=
  let q := (ServiceQuery.unmarshal (msg.Data.getD [])).1
  let providers := (p.getValue ("service:".toList ++ q.ServiceID)).1
  { ServiceID := q.ServiceID, Providers := [providers] }

/-- The handler registered for `MsgTypeServiceQuery`. -/
def P2PService.serviceQueryHandler (p : P2PService) : HandlerFunc := fun sender msg =>
  let q := (ServiceQuery.unmarshal (msg.Data.getD [])).1
  [Action.getValue ("service:".toList ++ q.ServiceID),
    Action.sendMessage sender MsgTypeServiceResponse (p.serviceQueryResponse msg).toGoValue]

/-- The handler registered for `MsgTypePing`. -/
def P2PService.pingHandler : HandlerFunc := fun sender _ =>
  [Action.sendMessage sender MsgTypePong
    (GoValue.object [("ok".toList, GoValue.str "true".toList)])]

/-- The calls `P2PService.Start` makes, in order. -/
inductive StartCall where
  /-- The call `kdht.Bootstrap(p.ctx)`. -/
  | bootstrap
  /-- The call `host.Connect(p.ctx, bp)`. -/
  | connect (bp : PeerID)
  /-- The call `NewProtocol(p.ctx, p.log, p.host)`. -/
  | newProtocol
  /-- A call `proto.RegisterHandler(msgType, _)`. -/
  | registerHandler (msgType : MessageType)
  /-- The statement `go p.run()`. -/
  | run

/-- The result of `P2PService.Start`: the calls made, the protocol with its
handlers (when one was created), the peers whose connection failed (each is logged)
and the error returned. -/
structure StartResult where
  calls : List StartCall
  proto : Option Protocol
  failed : List PeerID
  err : Option Error

/-- The loop over `p.bootstrapPeers`: the connection attempts, and the peers for
which the attempt failed. -/
def P2PService.connectLoop (p : P2PService) : List PeerID → List StartCall × List PeerID
  | [] => ([], [])
  | bp :: rest =>
    let r := p.connectLoop rest
    match p.connect bp with
    | some _ => (StartCall.connect bp :: r.1, bp :: r.2)
    | none => (StartCall.connect bp :: r.1, r.2)

/-- The method `P2PService.Start`. -/
def P2PService.Start (p : P2PService) : StartResult :=
  match p.bootstrap with
  | some err => { calls := [StartCall.bootstrap], proto := none, failed := [], err := some err }
  | none =>
    let c := p.connectLoop p.bootstrapPeers
    let proto := NewProtocol
    let proto := proto.RegisterHandler MsgTypeServiceQuery p.serviceQueryHandler
    let proto := proto.RegisterHandler MsgTypePing P2PService.pingHandler
    { calls := [StartCall.bootstrap] ++ c.1 ++
        [StartCall.newProtocol, StartCall.registerHandler MsgTypeServiceQuery,
          StartCall.registerHandler MsgTypePing, StartCall.run],
      proto := some proto, failed := c.2, err := none }

/-! ## `core/node/node.go` -/

/-- A registered `Service`, by its name and the outcomes of its `Start` and `Stop`. -/
structure Service where
  name : Bytes
  start : Option Error := none
  stop : Option Error := none

/-- The calls the node makes on its services, its root context and the runtime. -/
inductive NodeCall where
  /-- The call `s.Start(n.ctx)`. -/
  | start (s : Service)
  /-- The call `s.Stop()`. -/
  | stop (s : Service)
  /-- The call `n.cancel()`. -/
  | cancel
  /-- The statement `go n.handleInterrupt()`. -/
  | handleInterrupt

/-- The log lines of the node. -/
inductive NodeLog where
  | starting
  | started (name : Bytes)
  | stopping (name : Bytes)
  | stopError (name : Bytes) (err : Error)
  | shutdownComplete

/-- The struct `Node`: the registered services, whether the root context is
cancelled, and the calls and log lines so far. -/
structure Node where
  services : List Service := []
  cancelled : Bool := false
  calls : List NodeCall := []
  logs : List NodeLog := []

/-- The function `New`. -/
def Node.New : Node := {}

/-- The method `RegisterService`. -/
def Node.RegisterService (n : Node) (s : Service) : Node :=
  { n with services := n.services ++ [s] }

/-- The loop of `Node.Start` over the services that remain. -/
def Node.startLoop : List Service → List NodeCall × List NodeLog × Option Error
  | [] => ([], [], none)
  | s :: rest =>
    match s.start with
    | some err =>
      ([NodeCall.start s], [],
        some (Error.wrap ("failed to start service ".toList ++ s.name ++ ": ".toList) err))
    | none =>
      let r := Node.startLoop rest
      (NodeCall.start s :: r.1, NodeLog.started s.name :: r.2.1, r.2.2)

/-- The method `Node.Start`: the node afterwards and the error returned. -/
def Node.Start (n : Node) : Node × Option Error :=
  let r := Node.startLoop n.services
  match r.2.2 with
  | some err =>
    ({ n with calls := n.calls ++ r.1, logs := n.logs ++ NodeLog.starting :: r.2.1 }, some err)
  | none =>
    ({ n with calls := n.calls ++ r.1 ++ [NodeCall.handleInterrupt],
              logs := n.logs ++ NodeLog.starting :: r.2.1 }, none)

/-- The loop of `Node.Stop` over the services that remain. -/
def Node.stopLoop : List Service → List NodeCall × List NodeLog
  | [] => ([], [])
  | s :: rest =>
    let r := Node.stopLoop rest
    match s.stop with
    | some err =>
      (NodeCall.stop s :: r.1, NodeLog.stopping s.name :: NodeLog.stopError s.name err :: r.2)
    | none => (NodeCall.stop s :: r.1, NodeLog.stopping s.name :: r.2)

/-- The method `Node.Stop`: the node afterwards (the method returns nothing). -/
def Node.Stop (n : Node) : Node :=
  let r := Node.stopLoop n.services
  { n with calls := n.calls ++ r.1 ++ [NodeCall.cancel], cancelled := true,
           logs := n.logs ++ r.2 ++ [NodeLog.shutdownComplete] }

/-! ## Notions used in the statements and proofs -/

/-- The UTF-8 encoding of a byte string of the model: the bytes on the wire. -/
def utf8 : Bytes → List UInt8
  | [] => []
  | c :: s => String.utf8EncodeChar c ++ utf8 s

/-- What may follow a JSON value in a well-formed text: the end of the input, a
comma, a closing bracket or brace, or whitespace. -/
def json.Terminated (t : Bytes) : Prop :=
  ∀ c ∈ t.head?, c = ',' ∨ c = ']' ∨ c = '}' ∨ json.isSpace c = true

/-- The kind the scanner reports for the encoding of a value. -/
def json.GoValue.kind : json.GoValue → json.Kind
  | .null => json.Kind.null
  | .bool b => json.Kind.bool b
  | .int _ => json.Kind.number
  | .number _ => json.Kind.number
  | .str s => json.Kind.string s
  | .slice _ => json.Kind.array
  | .object _ => json.Kind.object
  | .unsupported => json.Kind.null

/-- The members the decoder finds in the encoding of an object with the given
fields. -/
def json.fieldMembers : List (Bytes × json.GoValue) → List json.Member
  | [] => []
  | (k, x) :: fs => ⟨k, (json.marshalValue x).getD [], x.kind⟩ :: json.fieldMembers fs

/-- A character at which a JSON value can start, as far as the scanner's
bookkeeping is concerned: not whitespace and not a closing bracket or brace. -/
def json.ValueStart (c : Char) : Prop := json.isSpace c = false ∧ c ≠ ']' ∧ c ≠ '}'

/-- The facts about the encoding `out` of a value of kind `k` that the proofs below
carry through the structure of a value: how it starts, that the scanner reads it
back in full, that compaction leaves it unchanged, and that it holds no newline. -/
structure json.GoodValue (k : json.Kind) (out : Bytes) : Prop where
  head : ∃ c r, out = c :: r ∧ json.ValueStart c
  scan : ∀ fuel t, out.length < fuel → json.Terminated t →
    json.scanValue fuel (out ++ t) = some (k, t)
  compact : ∀ t, json.compactChars false false (out ++ t) =
    out ++ json.compactChars false false t
  noNewline : '\n' ∉ out

/-- The same facts for the encoded elements of an array, to be followed by the
closing bracket. -/
structure json.GoodElems (nonempty : Bool) (b : Bytes) : Prop where
  head : nonempty = true → ∃ c r, b = c :: r ∧ json.ValueStart c
  empty : nonempty = false → b = []
  scan : nonempty = true → ∀ fuel t, b.length + 1 < fuel →
    json.scanElems fuel (b ++ ']' :: t) = some t
  compact : ∀ t, json.compactChars false false (b ++ t) =
    b ++ json.compactChars false false t
  noNewline : '\n' ∉ b

/-- The same facts for the encoded members of an object, to be followed by the
closing brace. -/
structure json.GoodFields (ms : List json.Member) (b : Bytes) : Prop where
  head : ms ≠ [] → ∃ r, b = '"' :: r
  empty : ms = [] → b = []
  scan : ms ≠ [] → ∀ fuel t, b.length + 1 < fuel →
    json.scanMembers fuel (b ++ '}' :: t) = some (ms, t)
  compact : ∀ t, json.compactChars false false (b ++ t) =
    b ++ json.compactChars false false t
  noNewline : '\n' ∉ b

/-- A character that stands for itself inside a string literal, for the scanner and
for compaction alike. -/
def json.Plain (c : Char) : Prop :=
  c ≠ '"' ∧ c ≠ '\\' ∧ 32 ≤ c.toNat ∧ c ≠ '<' ∧ c ≠ '>' ∧ c ≠ '&' ∧
    c.toNat ≠ 0x2028 ∧ c.toNat ≠ 0x2029

/-- The characters of a number literal. -/
def json.NumChar (c : Char) : Prop :=
  json.isDigit c = true ∨ c = '-' ∨ c = '+' ∨ c = '.' ∨ c = 'e' ∨ c = 'E'

/-! ## Examples -/

/-- A supervisor with the services `A`, `B`, `C`, of which `B` fails to start. -/
def exampleNode : Node :=
  ((Node.New.RegisterService { name := "A".toList }).RegisterService
    { name := "B".toList, start := some (Error.new "boom".toList) }).RegisterService
    { name := "C".toList }

/-- A protocol with one handler, registered for `MsgTypePing`. -/
def exampleProtocol : Protocol := NewProtocol.RegisterHandler MsgTypePing P2PService.pingHandler

/-- Three record bodies: a ping, a line that is not JSON, and another ping. -/
def exampleBodies : List Bytes :=
  ["\x7b\"type\":\"ping\"\x7d".toList, "\x7b\"type\":".toList,
    "\x7b\"type\":\"ping\",\"data\":1\x7d".toList]

/-- A complete ping envelope, with no newline after it. -/
def exampleEnvelope : Bytes := "\x7b\"type\":\"ping\",\"data\":null\x7d".toList

/-- An overlay service with two bootstrap peers, neither of which can be reached. -/
def exampleP2P : P2PService :=
  { bootstrapPeers := ["peerA".toList, "peerB".toList],
    connect := fun _ => some (Error.new "dial failed".toList) }

/-- An overlay service whose directory holds no record: every lookup returns no value
and the error "routing: not found". -/
def exampleMissing : P2PService :=
  { getValue := fun _ => ([], some (Error.new "routing: not found".toList)) }

/-- A `service_query` message for the service `X`. -/
def exampleQuery : Message :=
  { Typ := MsgTypeServiceQuery, Data := some "\x7b\"service_id\":\"X\"\x7d".toList }

/-- The payload of the reply to a ping: the map with the one entry `ok`. -/
def examplePong : json.GoValue :=
  json.GoValue.object [("ok".toList, json.GoValue.str "true".toList)]

/-- A host on which every stream opens and every write succeeds. -/
def exampleHost : PeerID → StreamOutcome := fun _ => {}

/-- The envelope of a message whose type and payload both hold a newline. -/
def exampleNewlines : Bytes := "\x7b\"type\":\"a\\nb\",\"data\":[\"x\\ny\"]\x7d".toList

/-! # Properties -/

/-! ## The supervisor -/

theorem startLoop_all_ok (ss : List Service) (h : ∀ t ∈ ss, t.start = none) :
    Node.startLoop ss = (ss.map NodeCall.start, ss.map (fun t => NodeLog.started t.name), none) := by
  induction ss with
  | nil => rfl
  | cons t ts ih =>
    have ht : t.start = none := h t (List.mem_cons_self _ _)
    have hts : ∀ u ∈ ts, u.start = none := fun u hu => h u (List.mem_cons_of_mem _ hu)
    simp [Node.startLoop, ht, ih hts]

theorem startLoop_first_failure (pre : List Service) (s : Service) (post : List Service)
    (err : Error) (hpre : ∀ t ∈ pre, t.start = none) (hs : s.start = some err) :
    Node.startLoop (pre ++ s :: post) =
      ((pre ++ [s]).map NodeCall.start, pre.map (fun t => NodeLog.started t.name),
        some (Error.wrap ("failed to start service ".toList ++ s.name ++ ": ".toList) err)) := by
  induction pre with
  | nil => simp [Node.startLoop, hs]
  | cons t ts ih =>
    have ht : t.start = none := hpre t (List.mem_cons_self _ _)
    have hts : ∀ u ∈ ts, u.start = none := fun u hu => hpre u (List.mem_cons_of_mem _ hu)
    simp [Node.startLoop, ht, ih hts]

theorem stopLoop_calls (ss : List Service) :
    (Node.stopLoop ss).1 = ss.map NodeCall.stop := by
  induction ss with
  | nil => rfl
  | cons t ts ih =>
    cases h : t.stop <;> simp [Node.stopLoop, h, ih]

/-- C2: when the first service whose `Start` fails is `s`, registered after the
services `pre` (which all start) and before the services `post`, `Node.Start` calls
`Start` once on each service of `pre` and then on `s`, in registration order, and
makes no other call: none on a service of `post`, no `Stop`, no cancellation of the
root context, no signal listener.  It returns an error whose text contains the name
of `s` and which wraps the error `s` returned. -/
theorem Node.Start_first_failure (n : Node) (pre : List Service) (s : Service)
    (post : List Service) (err : Error)
    (hreg : n.services = pre ++ s :: post)
    (hpre : ∀ t ∈ pre, t.start = none) (hs : s.start = some err) :
    (n.Start).1.calls = n.calls ++ (pre.map NodeCall.start ++ [NodeCall.start s]) ∧
    (n.Start).1.cancelled = n.cancelled ∧
    (n.Start).1.services = n.services ∧
    ∃ e, (n.Start).2 = some e ∧ e.unwrap = some err ∧
      e.msg = "failed to start service ".toList ++ s.name ++ (": ".toList ++ err.msg) := by
  have h := startLoop_first_failure pre s post err hpre hs
  simp [Node.Start, hreg, h, Error.wrap, Error.unwrap, Error.msg]

theorem Node.Start_first_failure_witness :
    (exampleNode.Start).1.calls =
      [NodeCall.start { name := "A".toList },
        NodeCall.start { name := "B".toList, start := some (Error.new "boom".toList) }] ∧
    (exampleNode.Start).1.cancelled = false ∧
    ∃ e, (exampleNode.Start).2 = some e ∧ e.unwrap = some (Error.new "boom".toList) ∧
      e.msg = "failed to start service B: boom".toList := by
  have h := Node.Start_first_failure exampleNode [{ name := "A".toList }]
    { name := "B".toList, start := some (Error.new "boom".toList) } [{ name := "C".toList }]
    (Error.new "boom".toList) rfl (by simp) rfl
  obtain ⟨h1, h2, _, e, h4, h5, h6⟩ := h
  exact ⟨h1, h2, e, h4, h5, h6⟩

/-- C3: `Node.Stop` calls `Stop` once on every registered service, in registration
order, whatever each call returns, then cancels the root context, and makes no other
call; afterwards the root context is cancelled.  The method has no result, so no
`Stop` error reaches the caller. -/
theorem Node.Stop_every_service (n : Node) :
    (n.Stop).calls = n.calls ++ n.services.map NodeCall.stop ++ [NodeCall.cancel] ∧
    (n.Stop).cancelled = true ∧
    (n.Stop).services = n.services := by
  simp [Node.Stop, stopLoop_calls]

/-! ## The protocol layer: reading a stream -/

theorem ReadBytes_record (delim : Char) (body rest : Bytes) (h : delim ∉ body) :
    ReadBytes delim (body ++ delim :: rest) = some (body ++ [delim], rest) := by
  induction body with
  | nil => simp [ReadBytes]
  | cons c cs ih =>
    have hc : c ≠ delim := fun e => h (e ▸ List.mem_cons_self _ _)
    have hcs : delim ∉ cs := fun m => h (List.mem_cons_of_mem _ m)
    simp [ReadBytes, hc, ih hcs]

theorem ReadBytes_unterminated (delim : Char) (tail : Bytes) (h : delim ∉ tail) :
    ReadBytes delim tail = none := by
  induction tail with
  | nil => rfl
  | cons c cs ih =>
    have hc : c ≠ delim := fun e => h (e ▸ List.mem_cons_self _ _)
    have hcs : delim ∉ cs := fun m => h (List.mem_cons_of_mem _ m)
    simp [ReadBytes, hc, ih hcs]

theorem dispatched_end (final : Option Error) :
    dispatched (match final with
      | some err =>
        if contains "closed".toList err.msg then [StreamEvent.close]
        else [StreamEvent.warnRead err, StreamEvent.close]
      | none => [StreamEvent.close]) = [] := by
  cases final with
  | none => rfl
  | some err =>
    show dispatched (if contains "closed".toList err.msg then _ else _) = []
    split <;> rfl

theorem handleStreamLoop_records (p : Protocol) (sender : PeerID) (final : Option Error)
    (bodies : List Bytes) (tail : Bytes)
    (hb : ∀ b ∈ bodies, '\n' ∉ b) (ht : '\n' ∉ tail) :
    ∀ fuel, (frame bodies ++ tail).length < fuel →
      dispatched (handleStreamLoop p sender final fuel (frame bodies ++ tail)) =
        bodies.filterMap (fun b => p.route sender (b ++ ['\n'])) := by
  induction bodies with
  | nil =>
    intro fuel hf
    cases fuel with
    | zero => omega
    | succ n =>
      simp only [frame, List.nil_append, handleStreamLoop, ReadBytes_unterminated _ _ ht,
        List.filterMap_nil]
      exact dispatched_end final
  | cons b bs ih =>
    intro fuel hf
    have hb0 : '\n' ∉ b := hb b (List.mem_cons_self _ _)
    have hbs : ∀ c ∈ bs, '\n' ∉ c := fun c hc => hb c (List.mem_cons_of_mem _ hc)
    cases fuel with
    | zero => omega
    | succ n =>
      have hlen : (frame bs ++ tail).length < n := by
        simp [frame] at hf ⊢
        omega
      have hrec := ih hbs n hlen
      have hread : ReadBytes '\n' (frame (b :: bs) ++ tail) =
          some (b ++ ['\n'], frame bs ++ tail) := by
        have := ReadBytes_record '\n' b (frame bs ++ tail) hb0
        simpa [frame] using this
      simp only [handleStreamLoop, hread, List.filterMap_cons]
      cases hd : DecodeMessage (b ++ ['\n']) with
      | error e =>
        have hr : p.route sender (b ++ ['\n']) = none := by simp [Protocol.route, hd]
        simp only [hr, dispatched]
        exact hrec
      | ok msg =>
        cases hh : p.handler msg.Typ with
        | none =>
          have hr : p.route sender (b ++ ['\n']) = none := by simp [Protocol.route, hd, hh]
          simp only [hr, hh, dispatched]
          exact hrec
        | some h =>
          have hr : p.route sender (b ++ ['\n']) = some (h, sender, msg) := by
            simp [Protocol.route, hd, hh]
          simp only [hr, hh, dispatched, hrec]

/-- C5: on a stream made of newline-terminated records, `handleStream` starts a
handler for exactly the records that decode and whose type has a registered handler,
in stream order.  A record that fails to decode is skipped and the records after it
are still read and dispatched; the loop stops only when the stream ends. -/
theorem Protocol.handleStream_skips_malformed (p : Protocol) (sender : PeerID)
    (final : Option Error) (bodies : List Bytes) (hb : ∀ b ∈ bodies, '\n' ∉ b) :
    dispatched (p.handleStream sender (frame bodies) final) =
      bodies.filterMap (fun b => p.route sender (b ++ ['\n'])) := by
  have h := handleStreamLoop_records p sender final bodies [] hb (by simp)
    ((frame bodies).length + 1) (by simp)
  simpa [Protocol.handleStream] using h

/-- C10: when the stream ends without a trailing newline, `handleStream` dispatches
only the newline-terminated records; the bytes after the last newline are dropped,
whatever they are. -/
theorem Protocol.handleStream_drops_unterminated (p : Protocol) (sender : PeerID)
    (final : Option Error) (bodies : List Bytes) (tail : Bytes)
    (hb : ∀ b ∈ bodies, '\n' ∉ b) (ht : '\n' ∉ tail) :
    dispatched (p.handleStream sender (frame bodies ++ tail) final) =
      bodies.filterMap (fun b => p.route sender (b ++ ['\n'])) := by
  exact handleStreamLoop_records p sender final bodies tail hb ht
    ((frame bodies ++ tail).length + 1) (by simp)

theorem Protocol.handleStream_skips_malformed_witness :
    (∀ b ∈ exampleBodies, '\n' ∉ b) ∧
    dispatched (exampleProtocol.handleStream "peer".toList (frame exampleBodies) none) =
      exampleBodies.filterMap (fun b => exampleProtocol.route "peer".toList (b ++ ['\n'])) ∧
    dispatchedMessages (exampleProtocol.handleStream "peer".toList (frame exampleBodies) none) =
      [{ Typ := MsgTypePing }, { Typ := MsgTypePing, Data := some ['1'] }] :=
  ⟨by decide,
    Protocol.handleStream_skips_malformed exampleProtocol "peer".toList none exampleBodies
      (by decide),
    by decide⟩

theorem Protocol.handleStream_drops_unterminated_witness :
    dispatched (exampleProtocol.handleStream "peer".toList (frame [] ++ exampleEnvelope) none) =
      [] ∧
    dispatchedMessages
      (exampleProtocol.handleStream "peer".toList (exampleEnvelope ++ ['\n']) none) =
      [{ Typ := MsgTypePing, Data := some ['n', 'u', 'l', 'l'] }] :=
  ⟨Protocol.handleStream_drops_unterminated exampleProtocol "peer".toList none []
      exampleEnvelope (by decide) (by decide),
    by decide⟩

/-! ## The overlay service -/

theorem connectLoop_calls (p : P2PService) (bps : List PeerID) :
    (p.connectLoop bps).1 = bps.map StartCall.connect := by
  induction bps with
  | nil => rfl
  | cons bp rest ih => cases h : p.connect bp <;> simp [P2PService.connectLoop, h, ih]

theorem connectLoop_failed (p : P2PService) (bps : List PeerID) :
    (p.connectLoop bps).2 = bps.filter (fun bp => (p.connect bp).isSome) := by
  induction bps with
  | nil => rfl
  | cons bp rest ih => cases h : p.connect bp <;> simp [P2PService.connectLoop, h, ih]

theorem handler_of_Start (p : P2PService) (t : MessageType) :
    (((NewProtocol.RegisterHandler MsgTypeServiceQuery p.serviceQueryHandler).RegisterHandler
      MsgTypePing P2PService.pingHandler).handler t) =
      if t = MsgTypePing then some P2PService.pingHandler
      else if t = MsgTypeServiceQuery then some p.serviceQueryHandler
      else none := by
  have hne : MsgTypeServiceQuery ≠ MsgTypePing := by decide
  by_cases h1 : t = MsgTypePing
  · subst h1
    simp [Protocol.handler, Protocol.RegisterHandler, NewProtocol, List.lookup]
  · by_cases h2 : t = MsgTypeServiceQuery
    · subst h2
      have hb : (MsgTypeServiceQuery == MsgTypePing) = false := by decide
      simp [Protocol.handler, Protocol.RegisterHandler, NewProtocol, List.lookup, hne, hb]
    · have h1b : (t == MsgTypePing) = false := by simpa using h1
      have h2b : (t == MsgTypeServiceQuery) = false := by simpa using h2
      simp [Protocol.handler, Protocol.RegisterHandler, NewProtocol, List.lookup, hne, h1,
        h2, h1b, h2b]

/-- C8: `P2PService.Start` returns exactly the error of `kdht.Bootstrap`, so it fails
if and only if bootstrapping fails.  When bootstrapping fails it makes no other
call: no connection attempt, no protocol, no handler.  When bootstrapping succeeds
it attempts every configured bootstrap peer in order, whatever each attempt
returns, returns no error, and leaves handlers registered for `MsgTypePing` and
`MsgTypeServiceQuery` and for no other type. -/
theorem P2PService.Start_bootstrap_fatal (p : P2PService) :
    (p.Start).err = p.bootstrap ∧
    (p.bootstrap ≠ none → (p.Start).calls = [StartCall.bootstrap] ∧ (p.Start).proto = none) ∧
    (p.bootstrap = none →
      (p.Start).calls = StartCall.bootstrap :: (p.bootstrapPeers.map StartCall.connect ++
        [StartCall.newProtocol, StartCall.registerHandler MsgTypeServiceQuery,
          StartCall.registerHandler MsgTypePing, StartCall.run]) ∧
      (p.Start).failed = p.bootstrapPeers.filter (fun bp => (p.connect bp).isSome) ∧
      ∃ proto, (p.Start).proto = some proto ∧
        ∀ t, proto.handler t =
          if t = MsgTypePing then some P2PService.pingHandler
          else if t = MsgTypeServiceQuery then some p.serviceQueryHandler
          else none) := by
  cases hb : p.bootstrap with
  | some err => simp [P2PService.Start, hb]
  | none =>
    refine ⟨by simp [P2PService.Start, hb], by simp, fun _ => ⟨?_, ?_, ?_⟩⟩
    · simp [P2PService.Start, hb, connectLoop_calls]
    · simp [P2PService.Start, hb, connectLoop_failed]
    · exact ⟨_, by simp [P2PService.Start, hb], handler_of_Start p⟩

theorem P2PService.Start_bootstrap_fatal_witness :
    (exampleP2P.Start).err = none ∧
    (exampleP2P.Start).calls =
      [StartCall.bootstrap, StartCall.connect "peerA".toList, StartCall.connect "peerB".toList,
        StartCall.newProtocol, StartCall.registerHandler MsgTypeServiceQuery,
        StartCall.registerHandler MsgTypePing, StartCall.run] ∧
    (exampleP2P.Start).failed = ["peerA".toList, "peerB".toList] := by
  obtain ⟨h1, _, h3⟩ := P2PService.Start_bootstrap_fatal exampleP2P
  obtain ⟨h4, h5, _⟩ := h3 rfl
  exact ⟨h1, h4, h5⟩

/-! ## `encoding/json`: characters and string literals -/

theorem char_eq_iff (c d : Char) : c = d ↔ c.toNat = d.toNat := by
  constructor
  · intro h; rw [h]
  · intro h
    have := congrArg Char.ofNat h
    simpa [Char.ofNat_toNat] using this

theorem toNat_ofNat_cases (n : Nat) : (Char.ofNat n).toNat = n ∨ (Char.ofNat n).toNat = 0 := by
  by_cases hv : n.isValidChar
  · left
    have h32 : n < 4294967296 := by
      rcases hv with h | ⟨_, h⟩ <;> omega
    simp only [Char.ofNat, hv, dite_true, Char.ofNatAux, Char.toNat]
    show (BitVec.ofNatLt n _).toNat = n
    simp
  · right
    simp only [Char.ofNat, hv, dite_false]
    rfl

theorem toNat_ofNat_lt (n : Nat) (h : n < 55296) : (Char.ofNat n).toNat = n := by
  have hv : n.isValidChar := Or.inl h
  have h32 : n < 4294967296 := by omega
  simp only [Char.ofNat, hv, dite_true, Char.ofNatAux, Char.toNat]
  show (BitVec.ofNatLt n _).toNat = n
  simp

theorem hexVal_hexDigit : ∀ k, k < 16 → json.hexVal (json.hexDigit k) = some k := by decide

theorem hex4_low (n : Nat) (h : n < 256) :
    json.hex4 '0' '0' (json.hexDigit (n / 16)) (json.hexDigit (n % 16)) = some n := by
  have h1 := hexVal_hexDigit (n / 16) (by omega)
  have h2 := hexVal_hexDigit (n % 16) (by omega)
  have h0 : json.hexVal '0' = some 0 := by decide
  simp only [json.hex4, h0, h1, h2]
  congr 1
  omega

theorem hex4_line_sep (n : Nat) (h : n = 0x2028 ∨ n = 0x2029) :
    json.hex4 '2' '0' '2' (json.hexDigit (n % 16)) = some n := by
  rcases h with h | h <;> subst h <;> decide

theorem escapeChar_length_pos (c : Char) : 0 < (json.escapeChar c).length := by
  unfold json.escapeChar
  split_ifs <;> simp

theorem unquoteBody_plain (n : Nat) (c : Char) (rest : Bytes) (hq : c ≠ '"') (hb : c ≠ '\\')
    (h32 : 32 ≤ c.toNat) :
    json.unquoteBody (n + 1) (c :: rest) =
      (json.unquoteBody n rest).map (fun p => (c :: p.1, p.2)) := by
  simp [json.unquoteBody, hq, hb, Nat.not_lt.mpr h32]

theorem unquoteBody_escape (n : Nat) (x : Char) (s rest : Bytes)
    (hx : json.unescape s = some (x, rest)) :
    json.unquoteBody (n + 1) ('\\' :: s) =
      (json.unquoteBody n rest).map (fun p => (x :: p.1, p.2)) := by
  simp [json.unquoteBody, hx]

theorem unescape_simple (e x : Char) (rest : Bytes) (he : e ≠ 'u')
    (hx : json.simpleEscape e = some x) : json.unescape (e :: rest) = some (x, rest) := by
  simp [json.unescape, he, hx]

theorem unescape_u (a b c d : Char) (rr : Nat) (rest : Bytes)
    (hx : json.hex4 a b c d = some rr) (hs : json.isSurrogate rr = false) :
    json.unescape ('u' :: a :: b :: c :: d :: rest) = some (Char.ofNat rr, rest) := by
  simp [json.unescape, hx, hs]

theorem htmlSafe_hexDigit : ∀ k, k < 16 → json.htmlSafe (json.hexDigit k) = true := by decide

theorem Plain_of_htmlSafe (c : Char) (h : json.htmlSafe c = true) : json.Plain c := by
  simp only [json.htmlSafe, decide_eq_true_eq] at h
  obtain ⟨h32, h128, hq, hb, hl, hg, ha⟩ := h
  exact ⟨hq, hb, h32, hl, hg, ha, by omega, by omega⟩

/-- What `appendString` emits for a character: either the character itself, which is
then a plain one, or a backslash followed by a sequence that `unescape` reads back
as that character and whose characters after the first are plain ASCII. -/
theorem escapeChar_cases (c : Char) :
    (json.escapeChar c = [c] ∧ json.Plain c) ∨
    ∃ x e, json.escapeChar c = '\\' :: x :: e ∧
      (∀ rest, json.unescape (x :: e ++ rest) = some (c, rest)) ∧
      x ≠ '\n' ∧ ∀ y ∈ e, json.htmlSafe y = true := by
  unfold json.escapeChar
  by_cases hascii : c.toNat < 128
  · simp only [hascii, if_true]
    by_cases hsafe : json.htmlSafe c = true
    · left
      simp only [hsafe, if_true]
      exact ⟨trivial, Plain_of_htmlSafe c hsafe⟩
    · right
      simp only [hsafe]
      by_cases h1 : c = '\\' ∨ c = '"'
      · simp only [h1, if_true]
        have hx : json.simpleEscape c = some c := by
          rcases h1 with h | h <;> subst h <;> rfl
        have hu : c ≠ 'u' := by
          rcases h1 with h | h <;> subst h <;> decide
        have hn : c ≠ '\n' := by
          rcases h1 with h | h <;> subst h <;> decide
        exact ⟨c, [], rfl, fun rest => unescape_simple c c rest hu hx, hn, by simp⟩
      · simp only [h1, if_false]
        by_cases h8 : c.toNat = 8
        · have hc : Char.ofNat 8 = c := by rw [char_eq_iff, h8]; rfl
          simp only [h8, if_true]
          exact ⟨'b', [], rfl, fun rest => hc ▸ unescape_simple 'b' _ rest (by decide) rfl,
            by decide, by simp⟩
        · simp only [h8, if_false]
          by_cases h12 : c.toNat = 12
          · have hc : Char.ofNat 12 = c := by rw [char_eq_iff, h12]; rfl
            simp only [h12, if_true]
            exact ⟨'f', [], rfl, fun rest => hc ▸ unescape_simple 'f' _ rest (by decide) rfl,
              by decide, by simp⟩
          · simp only [h12, if_false]
            by_cases hn : c = '\n'
            · subst hn
              exact ⟨'n', [], rfl, fun rest => unescape_simple 'n' _ rest (by decide) rfl,
                by decide, by simp⟩
            · simp only [hn, if_false]
              by_cases hr : c = '\r'
              · subst hr
                exact ⟨'r', [], rfl, fun rest => unescape_simple 'r' _ rest (by decide) rfl,
                  by decide, by simp⟩
              · simp only [hr, if_false]
                by_cases ht : c = '\t'
                · subst ht
                  exact ⟨'t', [], rfl, fun rest => unescape_simple 't' _ rest (by decide) rfl,
                    by decide, by simp⟩
                · simp only [ht, if_false]
                  have hx := hex4_low c.toNat (by omega)
                  have hs : json.isSurrogate c.toNat = false := by
                    simp [json.isSurrogate]; omega
                  refine ⟨'u', _, rfl, fun rest => ?_, by decide, ?_⟩
                  · have := unescape_u '0' '0' _ _ c.toNat rest hx hs
                    simpa [Char.ofNat_toNat] using this
                  · intro y hy
                    simp only [List.mem_cons, List.mem_singleton, List.not_mem_nil,
                      or_false] at hy
                    rcases hy with e | e | e | e
                    · subst e; decide
                    · subst e; decide
                    · exact e ▸ htmlSafe_hexDigit _ (by omega)
                    · exact e ▸ htmlSafe_hexDigit _ (by omega)
  · simp only [hascii, if_false]
    by_cases hls : c.toNat = 0x2028 ∨ c.toNat = 0x2029
    · right
      simp only [hls, if_true]
      have hx := hex4_line_sep c.toNat hls
      have hs : json.isSurrogate c.toNat = false := by
        simp [json.isSurrogate]; omega
      refine ⟨'u', _, rfl, fun rest => ?_, by decide, ?_⟩
      · have := unescape_u '2' '0' '2' _ c.toNat rest hx hs
        simpa [Char.ofNat_toNat] using this
      · intro y hy
        simp only [List.mem_cons, List.mem_singleton, List.not_mem_nil, or_false] at hy
        rcases hy with e | e | e | e
        · subst e; decide
        · subst e; decide
        · subst e; decide
        · exact e ▸ htmlSafe_hexDigit _ (by omega)
    · left
      simp only [hls, if_false]
      have hne : ∀ d : Char, d.toNat < 128 → c ≠ d := by
        intro d hd e
        subst e
        exact hascii hd
      refine ⟨trivial, hne _ (by decide), hne _ (by decide), by omega, hne _ (by decide),
        hne _ (by decide), hne _ (by decide), ?_, ?_⟩
      · intro e; exact hls (Or.inl e)
      · intro e; exact hls (Or.inr e)

theorem unquoteBody_escapeString (s rest : Bytes) :
    ∀ n, (json.escapeString s).length < n →
      json.unquoteBody n (json.escapeString s ++ '"' :: rest) = some (s, rest) := by
  induction s with
  | nil =>
    intro n hn
    cases n with
    | zero => omega
    | succ m => simp [json.escapeString, json.unquoteBody]
  | cons c cs ih =>
    intro n hn
    cases n with
    | zero => omega
    | succ m =>
      simp only [json.escapeString, List.length_append] at hn
      have hpos := escapeChar_length_pos c
      have hm : (json.escapeString cs).length < m := by omega
      simp only [json.escapeString, List.append_assoc]
      rcases escapeChar_cases c with ⟨h1, hq, hb, h32, _⟩ | ⟨x, e, h1, h2, _, _⟩
      · rw [h1]
        show json.unquoteBody (m + 1) (c :: (json.escapeString cs ++ '"' :: rest)) = _
        rw [unquoteBody_plain m c _ hq hb h32, ih m hm]
        rfl
      · rw [h1]
        show json.unquoteBody (m + 1)
          ('\\' :: (x :: e ++ (json.escapeString cs ++ '"' :: rest))) = _
        rw [unquoteBody_escape m c _ _ (h2 _), ih m hm]
        rfl

/-! ## `encoding/json`: numbers -/

theorem Terminated_nil : json.Terminated [] := by
  intro c hc
  simp at hc

theorem Terminated_cons (c : Char) (t : Bytes)
    (h : c = ',' ∨ c = ']' ∨ c = '}' ∨ json.isSpace c = true) : json.Terminated (c :: t) := by
  intro d hd
  simp only [List.head?_cons, Option.mem_def, Option.some.injEq] at hd
  exact hd ▸ h

theorem Terminated_head (c : Char) (t : Bytes) (h : json.Terminated (c :: t)) :
    json.isDigit c = false ∧ c ≠ '.' ∧ c ≠ 'e' ∧ c ≠ 'E' ∧ c ≠ '-' ∧ c ≠ '+' := by
  have hc := h c (by simp)
  simp only [json.isSpace, decide_eq_true_eq] at hc
  rcases hc with h | h | h | h | h | h | h <;> subst h <;> decide

theorem skipDigits_terminated (t : Bytes) (h : json.Terminated t) : json.skipDigits t = t := by
  cases t with
  | nil => rfl
  | cons c r => simp [json.skipDigits, (Terminated_head c r h).1]

theorem skipDigits_append (x t : Bytes) (h : json.Terminated t) :
    json.skipDigits (x ++ t) = json.skipDigits x ++ t := by
  induction x with
  | nil => simpa [json.skipDigits] using skipDigits_terminated t h
  | cons c r ih =>
    by_cases hd : json.isDigit c = true
    · simp [json.skipDigits, hd, ih]
    · simp [json.skipDigits, hd]

theorem skipDigits_eq_nil (x : Bytes) (h : json.skipDigits x = []) :
    ∀ c ∈ x, json.isDigit c = true := by
  induction x with
  | nil => simp
  | cons c r ih =>
    by_cases hd : json.isDigit c = true
    · simp only [json.skipDigits, hd, if_true] at h
      intro d hmem
      rcases List.mem_cons.mp hmem with e | e
      · exact e ▸ hd
      · exact ih h d e
    · simp [json.skipDigits, hd] at h

theorem scanExp_terminated (t : Bytes) (h : json.Terminated t) : json.scanExp t = some t := by
  cases t with
  | nil => rfl
  | cons c r =>
    obtain ⟨_, _, he, hE, _⟩ := Terminated_head c r h
    simp [json.scanExp, he, hE]

theorem scanFrac_terminated (t : Bytes) (h : json.Terminated t) : json.scanFrac t = some t := by
  cases t with
  | nil => rfl
  | cons c r =>
    obtain ⟨_, hdot, _⟩ := Terminated_head c r h
    simp only [json.scanFrac, hdot, if_false]
    exact scanExp_terminated _ h

theorem scanDigits1_digits (d : Char) (r t : Bytes) (hd : json.isDigit d = true)
    (hr : json.skipDigits r = []) (h : json.Terminated t) :
    json.scanDigits1 (d :: (r ++ t)) = some t := by
  simp [json.scanDigits1, hd, skipDigits_append r t h, hr]

theorem scanExp_valid (s t : Bytes) (hs : json.validExp s = some []) (h : json.Terminated t) :
    json.scanExp (s ++ t) = some t := by
  match s with
  | [] => simpa using scanExp_terminated t h
  | [c] => simp [json.validExp] at hs
  | c :: d :: r =>
    by_cases he : c = 'e' ∨ c = 'E'
    · simp only [json.validExp, he, if_true] at hs
      by_cases hsign : d = '+' ∨ d = '-'
      · simp only [hsign, if_true] at hs
        cases r with
        | nil => simp at hs
        | cons x r2 =>
          simp only [reduceCtorEq, if_false, Option.some.injEq] at hs
          have hx : json.isDigit x = true := skipDigits_eq_nil _ hs x (List.mem_cons_self _ _)
          have hr2 : json.skipDigits r2 = [] := by
            simpa [json.skipDigits, hx] using hs
          have := scanDigits1_digits x r2 t hx hr2 h
          simpa [json.scanExp, he, hsign] using this
      · simp only [hsign, if_false, Option.some.injEq] at hs
        have hd : json.isDigit d = true := skipDigits_eq_nil _ hs d (List.mem_cons_self _ _)
        have hr : json.skipDigits r = [] := by
          simpa [json.skipDigits, hd] using hs
        have := scanDigits1_digits d r t hd hr h
        simpa [json.scanExp, he, hsign] using this
    · simp [json.validExp, he] at hs

theorem scanFrac_valid (s t : Bytes) (hs : json.validExp (json.validFrac s) = some [])
    (h : json.Terminated t) : json.scanFrac (s ++ t) = some t := by
  match s with
  | [] => simpa using scanFrac_terminated t h
  | [c] => simp [json.validFrac, json.validExp] at hs
  | c :: d :: r =>
    by_cases hdot : c = '.'
    · by_cases hd : json.isDigit d = true
      · have hv : json.validFrac (c :: d :: r) = json.skipDigits r := by
          simp [json.validFrac, hdot, hd]
        rw [hv] at hs
        have := scanExp_valid _ t hs h
        simpa [json.scanFrac, hdot, json.scanDigits1, hd, skipDigits_append r t h] using this
      · have hv : json.validFrac (c :: d :: r) = c :: d :: r := by
          simp [json.validFrac, hd]
        rw [hv] at hs
        subst hdot
        simp [json.validExp] at hs
    · have hv : json.validFrac (c :: d :: r) = c :: d :: r := by
        simp [json.validFrac, hdot]
      rw [hv] at hs
      have := scanExp_valid _ t hs h
      simpa [json.scanFrac, hdot] using this

theorem scanInt_valid (s s2 t : Bytes) (hs : json.validInt s = some s2) (h : json.Terminated t) :
    json.scanInt (s ++ t) = some (s2 ++ t) := by
  cases s with
  | nil => simp [json.validInt] at hs
  | cons c r =>
    by_cases h0 : c = '0'
    · simp only [json.validInt, h0, if_true, Option.some.injEq] at hs
      simp [json.scanInt, h0, hs]
    · by_cases hd : json.isDigit c = true
      · simp only [json.validInt, h0, hd, if_true, if_false, Option.some.injEq] at hs
        simp [json.scanInt, h0, hd, skipDigits_append r t h, hs]
      · simp [json.validInt, h0, hd] at hs

theorem scanNumber_valid (s t : Bytes) (hs : json.isValidNumber s = true)
    (h : json.Terminated t) : json.scanNumber (s ++ t) = some t := by
  cases s with
  | nil => simp [json.isValidNumber] at hs
  | cons c r =>
    simp only [json.isValidNumber] at hs
    by_cases hm : c = '-'
    · simp only [hm, if_true] at hs
      cases r with
      | nil => simp at hs
      | cons x r2 =>
        simp only [reduceCtorEq, if_false] at hs
        cases hi : json.validInt (x :: r2) with
        | none => simp [hi] at hs
        | some s2 =>
          simp only [hi] at hs
          cases he : json.validExp (json.validFrac s2) with
          | none => simp [he] at hs
          | some s3 =>
            simp only [he, decide_eq_true_eq] at hs
            subst hs
            have h1 := scanInt_valid _ _ t hi h
            have h2 := scanFrac_valid _ t he h
            simp only [List.cons_append] at h1
            simp [json.scanNumber, hm, h1, h2]
    · simp only [hm, if_false, reduceCtorEq] at hs
      cases hi : json.validInt (c :: r) with
      | none => simp [hi] at hs
      | some s2 =>
        simp only [hi] at hs
        cases he : json.validExp (json.validFrac s2) with
        | none => simp [he] at hs
        | some s3 =>
          simp only [he, decide_eq_true_eq] at hs
          subst hs
          have h1 := scanInt_valid _ _ t hi h
          have h2 := scanFrac_valid _ t he h
          simp only [List.cons_append] at h1
          simp [json.scanNumber, hm, h1, h2]

theorem isValidNumber_head (s : Bytes) (hs : json.isValidNumber s = true) :
    ∃ c r, s = c :: r ∧ (c = '-' ∨ json.isDigit c = true) := by
  cases s with
  | nil => simp [json.isValidNumber] at hs
  | cons c r =>
    refine ⟨c, r, rfl, ?_⟩
    by_cases hm : c = '-'
    · exact Or.inl hm
    · right
      simp only [json.isValidNumber, hm, if_false, reduceCtorEq] at hs
      by_cases h0 : c = '0'
      · subst h0; decide
      · by_cases hd : json.isDigit c = true
        · exact hd
        · simp [json.validInt, h0, hd] at hs

/-! ## `encoding/json`: integers -/

theorem isDigit_ofNat (n : Nat) (h : n < 10) : json.isDigit (Char.ofNat (48 + n)) = true := by
  have := toNat_ofNat_lt (48 + n) (by omega)
  simp [json.isDigit, this]
  omega

theorem ofNat_ne_zero_digit (n : Nat) (h : n < 10) (h0 : n ≠ 0) : Char.ofNat (48 + n) ≠ '0' := by
  have := toNat_ofNat_lt (48 + n) (by omega)
  rw [Ne, char_eq_iff, this]
  simp
  exact h0

theorem formatNatAux_spec : ∀ fuel n acc, n < fuel →
    ∃ d ds, json.formatNatAux fuel n acc = d :: (ds ++ acc) ∧ json.isDigit d = true ∧
      (∀ x ∈ ds, json.isDigit x = true) ∧ (n ≠ 0 → d ≠ '0') ∧ (n = 0 → ds = []) := by
  intro fuel
  induction fuel with
  | zero => intro n acc h; omega
  | succ f ih =>
    intro n acc h
    by_cases h10 : n < 10
    · refine ⟨Char.ofNat (48 + n), [], ?_, isDigit_ofNat n h10, by simp,
        ofNat_ne_zero_digit n h10, fun _ => rfl⟩
      simp [json.formatNatAux, h10]
    · have hlt : n / 10 < f := by omega
      obtain ⟨d, ds, h1, h2, h3, h4, _⟩ := ih (n / 10) (Char.ofNat (48 + n % 10) :: acc) hlt
      refine ⟨d, ds ++ [Char.ofNat (48 + n % 10)], ?_, h2, ?_, fun _ => h4 (by omega),
        fun h0 => by omega⟩
      · simp [json.formatNatAux, h10, h1]
      · intro x hx
        rcases List.mem_append.mp hx with hx | hx
        · exact h3 x hx
        · simp only [List.mem_singleton] at hx
          exact hx ▸ isDigit_ofNat (n % 10) (by omega)

theorem formatNat_spec (n : Nat) :
    ∃ d ds, json.formatNat n = d :: ds ∧ json.isDigit d = true ∧
      (∀ x ∈ ds, json.isDigit x = true) ∧ (d = '0' → ds = []) := by
  obtain ⟨d, ds, h1, h2, h3, h4, h5⟩ := formatNatAux_spec (n + 1) n [] (by omega)
  refine ⟨d, ds, by simpa [json.formatNat] using h1, h2, h3, fun hd => ?_⟩
  by_cases h0 : n = 0
  · exact h5 h0
  · exact absurd hd (h4 h0)

theorem skipDigits_all (ds : Bytes) (h : ∀ x ∈ ds, json.isDigit x = true) :
    json.skipDigits ds = [] := by
  induction ds with
  | nil => rfl
  | cons c r ih =>
    have hc := h c (List.mem_cons_self _ _)
    simp [json.skipDigits, hc, ih (fun x hx => h x (List.mem_cons_of_mem _ hx))]

theorem scanInt_formatNat (n : Nat) (t : Bytes) (h : json.Terminated t) :
    json.scanInt (json.formatNat n ++ t) = some t := by
  obtain ⟨d, ds, h1, h2, h3, h4⟩ := formatNat_spec n
  rw [h1]
  by_cases h0 : d = '0'
  · simp [json.scanInt, h0, h4 h0]
  · simp [json.scanInt, h0, h2, skipDigits_append ds t h, skipDigits_all ds h3]

theorem scanNumber_formatInt (i : Int) (t : Bytes) (h : json.Terminated t) :
    json.scanNumber (json.formatInt i ++ t) = some t := by
  have hint := scanInt_formatNat i.natAbs t h
  have hfrac := scanFrac_terminated t h
  unfold json.formatInt
  by_cases hneg : i < 0
  · simp [hneg, json.scanNumber, hint, hfrac]
  · obtain ⟨d, ds, h1, h2, _, _⟩ := formatNat_spec i.natAbs
    have hd : d ≠ '-' := by
      intro e; subst e; simp [json.isDigit] at h2
    simp only [hneg, if_false]
    rw [h1] at hint ⊢
    simp only [List.cons_append] at hint
    simp [json.scanNumber, hd, hint, hfrac]

theorem formatInt_chars (i : Int) : ∀ c ∈ json.formatInt i, c = '-' ∨ json.isDigit c = true := by
  obtain ⟨d, ds, h1, h2, h3, _⟩ := formatNat_spec i.natAbs
  unfold json.formatInt
  intro c hc
  rw [h1] at hc
  split at hc
  · rcases List.mem_cons.mp hc with e | hc
    · exact Or.inl e
    · rcases List.mem_cons.mp hc with e | hc
      · exact Or.inr (e ▸ h2)
      · exact Or.inr (h3 c hc)
  · rcases List.mem_cons.mp hc with e | hc
    · exact Or.inr (e ▸ h2)
    · exact Or.inr (h3 c hc)

theorem formatInt_head (i : Int) :
    ∃ c r, json.formatInt i = c :: r ∧ (c = '-' ∨ json.isDigit c = true) := by
  obtain ⟨d, ds, h1, h2, _, _⟩ := formatNat_spec i.natAbs
  unfold json.formatInt
  split
  · exact ⟨'-', _, rfl, Or.inl rfl⟩
  · exact ⟨d, ds, h1, Or.inr h2⟩

/-! ## `encoding/json`: compaction and newlines -/

theorem NumChar_facts (c : Char) (h : json.NumChar c) :
    json.isSpace c = false ∧ c ≠ '"' ∧ c ≠ '\n' := by
  rcases h with h | h | h | h | h | h
  · simp only [json.isDigit, decide_eq_true_eq] at h
    have hne : ∀ d : Char, d.toNat < 48 → c ≠ d := by
      intro d hd e
      subst e
      omega
    refine ⟨?_, hne _ (by decide), hne _ (by decide)⟩
    simp only [json.isSpace, decide_eq_false_iff_not, not_or]
    exact ⟨hne _ (by decide), hne _ (by decide), hne _ (by decide), hne _ (by decide)⟩
  all_goals subst h; decide

theorem compact_plain_text (a t : Bytes)
    (h : ∀ c ∈ a, json.isSpace c = false ∧ c ≠ '"') :
    json.compactChars false false (a ++ t) = a ++ json.compactChars false false t := by
  induction a with
  | nil => rfl
  | cons c r ih =>
    obtain ⟨h1, h2⟩ := h c (List.mem_cons_self _ _)
    have := ih (fun d hd => h d (List.mem_cons_of_mem _ hd))
    simp [json.compactChars, h1, h2, this]

theorem compact_in_string (c : Char) (s : Bytes) (h : json.Plain c) :
    json.compactChars true false (c :: s) = c :: json.compactChars true false s := by
  obtain ⟨hq, hb, _, hl, hg, ha, h8, h9⟩ := h
  simp [json.compactChars, hq, hb, hl, hg, ha, h8, h9]

theorem compact_in_string_all (e s : Bytes) (h : ∀ y ∈ e, json.htmlSafe y = true) :
    json.compactChars true false (e ++ s) = e ++ json.compactChars true false s := by
  induction e with
  | nil => rfl
  | cons c r ih =>
    have hc := Plain_of_htmlSafe c (h c (List.mem_cons_self _ _))
    have := ih (fun d hd => h d (List.mem_cons_of_mem _ hd))
    simp only [List.cons_append]
    rw [compact_in_string c _ hc, this]

theorem compact_escapeChar (c : Char) (rest : Bytes) :
    json.compactChars true false (json.escapeChar c ++ rest) =
      json.escapeChar c ++ json.compactChars true false rest := by
  rcases escapeChar_cases c with ⟨h1, hp⟩ | ⟨x, e, h1, _, _, he⟩
  · rw [h1]
    exact compact_in_string c rest hp
  · rw [h1]
    have := compact_in_string_all e rest he
    simp [json.compactChars, this]

theorem compact_escapeString (s rest : Bytes) :
    json.compactChars true false (json.escapeString s ++ '"' :: rest) =
      json.escapeString s ++ '"' :: json.compactChars false false rest := by
  induction s with
  | nil => simp [json.escapeString, json.compactChars]
  | cons c cs ih =>
    simp only [json.escapeString, List.append_assoc]
    rw [compact_escapeChar, ih]

theorem compact_appendString (s t : Bytes) :
    json.compactChars false false (json.appendString s ++ t) =
      json.appendString s ++ json.compactChars false false t := by
  have h := compact_escapeString s t
  have hsp : json.isSpace '"' = false := by decide
  simp [json.appendString, json.compactChars, hsp, h]

theorem newline_not_mem_escapeChar (c : Char) : '\n' ∉ json.escapeChar c := by
  have hsafe : ∀ y, json.htmlSafe y = true → y ≠ '\n' := by
    intro y hy e
    subst e
    simp [json.htmlSafe] at hy
  rcases escapeChar_cases c with ⟨h1, hp⟩ | ⟨x, e, h1, _, hx, he⟩
  · rw [h1]
    obtain ⟨_, _, h32, _⟩ := hp
    intro hm
    simp only [List.mem_singleton] at hm
    rw [← hm] at h32
    simp at h32
  · rw [h1]
    intro hm
    rcases List.mem_cons.mp hm with h | hm
    · exact absurd h (by decide)
    · rcases List.mem_cons.mp hm with h | hm
      · exact hx h.symm
      · exact hsafe _ (he _ hm) rfl

theorem newline_not_mem_escapeString (s : Bytes) : '\n' ∉ json.escapeString s := by
  induction s with
  | nil => simp [json.escapeString]
  | cons c cs ih =>
    simp only [json.escapeString, List.mem_append, not_or]
    exact ⟨newline_not_mem_escapeChar c, ih⟩

theorem newline_not_mem_appendString (s : Bytes) : '\n' ∉ json.appendString s := by
  have := newline_not_mem_escapeString s
  simp [json.appendString, this]

theorem mem_skipDigits (x : Bytes) (c : Char) (h : c ∈ x) :
    json.isDigit c = true ∨ c ∈ json.skipDigits x := by
  induction x with
  | nil => simp at h
  | cons d r ih =>
    by_cases hd : json.isDigit d = true
    · rcases List.mem_cons.mp h with e | hm
      · exact Or.inl (e ▸ hd)
      · simpa [json.skipDigits, hd] using ih hm
    · right
      simpa [json.skipDigits, hd] using h

theorem validInt_chars (s s2 : Bytes) (h : json.validInt s = some s2) :
    ∀ c ∈ s, json.NumChar c ∨ c ∈ s2 := by
  cases s with
  | nil => simp [json.validInt] at h
  | cons d r =>
    intro c hc
    by_cases h0 : d = '0'
    · simp only [json.validInt, h0, if_true, Option.some.injEq] at h
      rcases List.mem_cons.mp hc with e | hm
      · left; left; rw [e, h0]; decide
      · exact Or.inr (h ▸ hm)
    · by_cases hd : json.isDigit d = true
      · simp only [json.validInt, h0, hd, if_true, if_false, Option.some.injEq] at h
        rcases List.mem_cons.mp hc with e | hm
        · exact Or.inl (Or.inl (e ▸ hd))
        · rcases mem_skipDigits r c hm with h1 | h1
          · exact Or.inl (Or.inl h1)
          · exact Or.inr (h ▸ h1)
      · simp [json.validInt, h0, hd] at h

theorem validFrac_chars (s : Bytes) : ∀ c ∈ s, json.NumChar c ∨ c ∈ json.validFrac s := by
  match s with
  | [] => simp
  | [c] => intro d hd; exact Or.inr (by simpa [json.validFrac] using hd)
  | c :: d :: r =>
    intro x hx
    by_cases hc : c = '.' ∧ json.isDigit d = true
    · have hv : json.validFrac (c :: d :: r) = json.skipDigits r := by
        simp [json.validFrac, hc]
      rw [hv]
      rcases List.mem_cons.mp hx with e | hx
      · exact Or.inl (e ▸ Or.inr (Or.inr (Or.inr (Or.inl hc.1))))
      · rcases List.mem_cons.mp hx with e | hx
        · exact Or.inl (e ▸ Or.inl hc.2)
        · rcases mem_skipDigits r x hx with h1 | h1
          · exact Or.inl (Or.inl h1)
          · exact Or.inr h1
    · have hv : json.validFrac (c :: d :: r) = c :: d :: r := by
        simp only [json.validFrac, hc, if_false]
      rw [hv]
      exact Or.inr hx

theorem validExp_chars (s : Bytes) (h : json.validExp s = some []) :
    ∀ c ∈ s, json.NumChar c := by
  match s with
  | [] => simp
  | [c] => simp [json.validExp] at h
  | c :: d :: r =>
    by_cases he : c = 'e' ∨ c = 'E'
    · have hcn : json.NumChar c := by
        rcases he with e | e
        · exact Or.inr (Or.inr (Or.inr (Or.inr (Or.inl e))))
        · exact Or.inr (Or.inr (Or.inr (Or.inr (Or.inr e))))
      simp only [json.validExp, he, if_true] at h
      by_cases hsign : d = '+' ∨ d = '-'
      · have hdn : json.NumChar d := by
          rcases hsign with e | e
          · exact Or.inr (Or.inr (Or.inl e))
          · exact Or.inr (Or.inl e)
        simp only [hsign, if_true] at h
        by_cases hr : r = []
        · simp [hr] at h
        · simp only [hr, if_false, Option.some.injEq] at h
          have hall := skipDigits_eq_nil r h
          intro x hx
          rcases List.mem_cons.mp hx with e | hx
          · exact e ▸ hcn
          · rcases List.mem_cons.mp hx with e | hx
            · exact e ▸ hdn
            · exact Or.inl (hall x hx)
      · simp only [hsign, if_false, Option.some.injEq] at h
        have hall := skipDigits_eq_nil (d :: r) h
        intro x hx
        rcases List.mem_cons.mp hx with e | hx
        · exact e ▸ hcn
        · exact Or.inl (hall x hx)
    · simp [json.validExp, he] at h

theorem isValidNumber_chars (s : Bytes) (hs : json.isValidNumber s = true) :
    ∀ c ∈ s, json.NumChar c := by
  have key : ∀ s1 : Bytes, (match json.validInt s1 with
      | none => false
      | some s2 =>
        match json.validExp (json.validFrac s2) with
        | none => false
        | some s3 => decide (s3 = [])) = true → ∀ c ∈ s1, json.NumChar c := by
    intro s1 h1 c hc
    cases hi : json.validInt s1 with
    | none => simp [hi] at h1
    | some s2 =>
      simp only [hi] at h1
      cases he : json.validExp (json.validFrac s2) with
      | none => simp [he] at h1
      | some s3 =>
        simp only [he, decide_eq_true_eq] at h1
        subst h1
        rcases validInt_chars s1 s2 hi c hc with h | h
        · exact h
        · rcases validFrac_chars s2 c h with h | h
          · exact h
          · exact validExp_chars _ he c h
  cases s with
  | nil => simp [json.isValidNumber] at hs
  | cons d r =>
    simp only [json.isValidNumber] at hs
    by_cases hm : d = '-'
    · simp only [hm, if_true] at hs
      by_cases hr : r = []
      · simp [hr] at hs
      · simp only [hr, if_false] at hs
        intro c hc
        rcases List.mem_cons.mp hc with e | hc
        · exact Or.inr (Or.inl (e.trans hm))
        · exact key r hs c hc
    · simp only [hm, if_false, reduceCtorEq] at hs
      exact key (d :: r) hs

/-! ## `encoding/json`: the encoding of a value is read back -/

theorem skipSpace_start (c : Char) (r : Bytes) (h : json.isSpace c = false) :
    json.skipSpace (c :: r) = c :: r := by
  simp [json.skipSpace, h]

theorem ValueStart_of_digit_or_minus (c : Char) (h : c = '-' ∨ json.isDigit c = true) :
    json.ValueStart c := by
  have hn : json.NumChar c := by
    rcases h with h | h
    · exact Or.inr (Or.inl h)
    · exact Or.inl h
  refine ⟨(NumChar_facts c hn).1, ?_, ?_⟩
  · rcases h with h | h
    · subst h; decide
    · intro e; subst e; simp [json.isDigit] at h
  · rcases h with h | h
    · subst h; decide
    · intro e; subst e; simp [json.isDigit] at h

theorem scanValue_number (n : Nat) (c : Char) (rest : Bytes)
    (h : c = '-' ∨ json.isDigit c = true) :
    json.scanValue (n + 1) (c :: rest) =
      (json.scanNumber (c :: rest)).map (fun r => (json.Kind.number, r)) := by
  have hne : ∀ d : Char, d ≠ '-' → json.isDigit d = false → c ≠ d := by
    intro d h1 h2 e
    subst e
    rcases h with h | h
    · exact h1 h
    · rw [h] at h2; exact Bool.noConfusion h2
  have h1 := hne '{' (by decide) (by decide)
  have h2 := hne '[' (by decide) (by decide)
  have h3 := hne '"' (by decide) (by decide)
  have h4 := hne 't' (by decide) (by decide)
  have h5 := hne 'f' (by decide) (by decide)
  have h6 := hne 'n' (by decide) (by decide)
  simp [json.scanValue, h1, h2, h3, h4, h5, h6, h]

/-- A value whose encoding holds neither whitespace nor quotes and which the scanner
reads as one token. -/
theorem GoodValue_token (k : json.Kind) (out : Bytes)
    (hhead : ∃ c r, out = c :: r ∧ json.ValueStart c)
    (hscan : ∀ fuel t, out.length < fuel → json.Terminated t →
      json.scanValue fuel (out ++ t) = some (k, t))
    (hplain : ∀ c ∈ out, json.isSpace c = false ∧ c ≠ '"' ∧ c ≠ '\n') :
    json.GoodValue k out where
  head := hhead
  scan := hscan
  compact := fun t => compact_plain_text out t (fun c hc => ⟨(hplain c hc).1, (hplain c hc).2.1⟩)
  noNewline := fun hm => (hplain _ hm).2.2 rfl

theorem GoodValue_null : json.GoodValue json.Kind.null ['n', 'u', 'l', 'l'] := by
  apply GoodValue_token
  · exact ⟨'n', _, rfl, by decide, by decide, by decide⟩
  · intro fuel t hf _
    cases fuel with
    | zero => simp at hf
    | succ n => simp [json.scanValue, json.scanLiteral]
  · decide

theorem GoodValue_true : json.GoodValue (json.Kind.bool true) ['t', 'r', 'u', 'e'] := by
  apply GoodValue_token
  · exact ⟨'t', _, rfl, by decide, by decide, by decide⟩
  · intro fuel t hf _
    cases fuel with
    | zero => simp at hf
    | succ n => simp [json.scanValue, json.scanLiteral]
  · decide

theorem GoodValue_false : json.GoodValue (json.Kind.bool false) ['f', 'a', 'l', 's', 'e'] := by
  apply GoodValue_token
  · exact ⟨'f', _, rfl, by decide, by decide, by decide⟩
  · intro fuel t hf _
    cases fuel with
    | zero => simp at hf
    | succ n => simp [json.scanValue, json.scanLiteral]
  · decide

theorem GoodValue_int (i : Int) : json.GoodValue json.Kind.number (json.formatInt i) := by
  obtain ⟨c, r, h1, h2⟩ := formatInt_head i
  apply GoodValue_token
  · exact ⟨c, r, h1, ValueStart_of_digit_or_minus c h2⟩
  · intro fuel t hf ht
    cases fuel with
    | zero => simp at hf
    | succ n =>
      have hs := scanNumber_formatInt i t ht
      rw [h1] at hs ⊢
      simp only [List.cons_append] at hs ⊢
      rw [scanValue_number n c _ h2, hs]
      rfl
  · intro d hd
    have hn : json.NumChar d := by
      rcases formatInt_chars i d hd with h | h
      · exact Or.inr (Or.inl h)
      · exact Or.inl h
    exact NumChar_facts d hn

theorem GoodValue_number (s : Bytes) (hs : json.isValidNumber s = true) :
    json.GoodValue json.Kind.number s := by
  obtain ⟨c, r, h1, h2⟩ := isValidNumber_head s hs
  apply GoodValue_token
  · exact ⟨c, r, h1, ValueStart_of_digit_or_minus c h2⟩
  · intro fuel t hf ht
    cases fuel with
    | zero => simp at hf
    | succ n =>
      have hsc := scanNumber_valid s t hs ht
      rw [h1] at hsc ⊢
      simp only [List.cons_append] at hsc ⊢
      rw [scanValue_number n c _ h2, hsc]
      rfl
  · intro d hd
    exact NumChar_facts d (isValidNumber_chars s hs d hd)

theorem GoodValue_str (s : Bytes) : json.GoodValue (json.Kind.string s) (json.appendString s) where
  head := ⟨'"', _, rfl, by decide, by decide, by decide⟩
  scan := by
    intro fuel t hf _
    cases fuel with
    | zero => simp at hf
    | succ n =>
      have hlen : (json.escapeString s).length < n := by
        simp [json.appendString] at hf
        omega
      have := unquoteBody_escapeString s t n hlen
      simp [json.appendString, json.scanValue, this]
  compact := compact_appendString s
  noNewline := newline_not_mem_appendString s

theorem GoodValue_slice (ne : Bool) (b : Bytes) (h : json.GoodElems ne b) :
    json.GoodValue json.Kind.array ('[' :: (b ++ [']'])) where
  head := ⟨'[', _, rfl, by decide, by decide, by decide⟩
  scan := by
    intro fuel t hf _
    cases fuel with
    | zero => simp at hf
    | succ n =>
      have hlen : b.length + 1 < n := by
        simp at hf
        omega
      cases ne with
      | false =>
        have hb := h.empty rfl
        subst hb
        simp [json.scanValue, json.skipSpace, json.isSpace]
      | true =>
        obtain ⟨c, r, hb, hst, hbr, _⟩ := h.head rfl
        have hsc := h.scan rfl n t hlen
        rw [hb] at hsc
        simp only [List.cons_append] at hsc
        simp [json.scanValue, hb, skipSpace_start c _ hst, hbr, hsc]
  compact := by
    intro t
    have h1 := h.compact (']' :: t)
    have hsp1 : json.isSpace '[' = false := by decide
    have hsp2 : json.isSpace ']' = false := by decide
    simp [json.compactChars, hsp1, hsp2, h1]
  noNewline := by
    have := h.noNewline
    simp [this]

theorem GoodValue_object (ms : List json.Member) (b : Bytes) (h : json.GoodFields ms b) :
    json.GoodValue json.Kind.object ('{' :: (b ++ ['}'])) where
  head := ⟨'{', _, rfl, by decide, by decide, by decide⟩
  scan := by
    intro fuel t hf _
    cases fuel with
    | zero => simp at hf
    | succ n =>
      have hlen : b.length + 1 < n := by
        simp at hf
        omega
      by_cases hms : ms = []
      · have hb := h.empty hms
        subst hb
        simp [json.scanValue, json.skipSpace, json.isSpace]
      · obtain ⟨r, hb⟩ := h.head hms
        have hsc := h.scan hms n t hlen
        rw [hb] at hsc
        simp only [List.cons_append] at hsc
        have hsp : json.isSpace '"' = false := by decide
        simp [json.scanValue, hb, skipSpace_start '"' _ hsp, hsc]
  compact := by
    intro t
    have h1 := h.compact ('}' :: t)
    have hsp1 : json.isSpace '{' = false := by decide
    have hsp2 : json.isSpace '}' = false := by decide
    simp [json.compactChars, hsp1, hsp2, h1]
  noNewline := by
    have := h.noNewline
    simp [this]

theorem GoodElems_nil : json.GoodElems false [] where
  head := fun h => Bool.noConfusion h
  empty := fun _ => rfl
  scan := fun h => Bool.noConfusion h
  compact := fun _ => rfl
  noNewline := by simp

theorem GoodElems_last (k : json.Kind) (a : Bytes) (ha : json.GoodValue k a) :
    json.GoodElems true a where
  head := fun _ => ha.head
  empty := fun h => Bool.noConfusion h
  scan := by
    intro _ fuel t hf
    cases fuel with
    | zero => omega
    | succ m =>
      have hv := ha.scan m (']' :: t) (by omega) (Terminated_cons _ _ (Or.inr (Or.inl rfl)))
      have hsp : json.isSpace ']' = false := by decide
      simp [json.scanElems, hv, skipSpace_start ']' t hsp]
  compact := ha.compact
  noNewline := ha.noNewline

theorem GoodElems_more (k : json.Kind) (a b : Bytes) (ha : json.GoodValue k a)
    (hb : json.GoodElems true b) : json.GoodElems true (a ++ ',' :: b) where
  head := by
    intro _
    obtain ⟨c, r, h1, h2⟩ := ha.head
    exact ⟨c, r ++ ',' :: b, by simp [h1], h2⟩
  empty := fun h => Bool.noConfusion h
  scan := by
    intro _ fuel t hf
    cases fuel with
    | zero => omega
    | succ m =>
      simp only [List.length_append, List.length_cons] at hf
      have hv := ha.scan m (',' :: (b ++ ']' :: t)) (by omega)
        (Terminated_cons _ _ (Or.inl rfl))
      obtain ⟨c, r, h1, hst, _⟩ := hb.head rfl
      have hsc := hb.scan rfl m t (by omega)
      have hsp : json.isSpace ',' = false := by decide
      have hsk : json.skipSpace (b ++ ']' :: t) = b ++ ']' :: t := by
        rw [h1]
        exact skipSpace_start c _ hst
      simp [json.scanElems, hv, skipSpace_start ',' _ hsp, hsk, hsc]
  compact := by
    intro t
    have h1 := ha.compact (',' :: (b ++ t))
    have h2 := hb.compact t
    have hsp : json.isSpace ',' = false := by decide
    simp [h1, json.compactChars, hsp, h2]
  noNewline := by
    have h1 := ha.noNewline
    have h2 := hb.noNewline
    simp [h1, h2]

theorem take_value (a rest : Bytes) :
    (a ++ rest).take ((a ++ rest).length - rest.length) = a := by
  simp

theorem skipSpace_value (k : json.Kind) (a rest : Bytes) (ha : json.GoodValue k a) :
    json.skipSpace (a ++ rest) = a ++ rest := by
  obtain ⟨c, r, h1, hst, _⟩ := ha.head
  rw [h1]
  exact skipSpace_start c _ hst

/-- One step of `scanMembers` on an encoded member followed by `rest`, which starts
with the comma or the closing brace. -/
theorem scanMembers_member (m : Nat) (key : Bytes) (k : json.Kind) (a rest : Bytes)
    (ha : json.GoodValue k a) (hlen : (json.escapeString key).length + a.length + 1 < m)
    (hrest : json.Terminated rest) :
    json.scanMembers (m + 1) (json.appendString key ++ ':' :: (a ++ rest)) =
      match json.skipSpace rest with
      | [] => none
      | c2 :: r4 =>
        if c2 = ',' then
          (json.scanMembers m (json.skipSpace r4)).map
            (fun p => ((⟨key, a, k⟩ : json.Member) :: p.1, p.2))
        else if c2 = '}' then some ([⟨key, a, k⟩], r4)
        else none := by
  have hq := unquoteBody_escapeString key (':' :: (a ++ rest)) m (by omega)
  have hv := ha.scan m rest (by omega) hrest
  have hsp : json.isSpace ':' = false := by decide
  have hsk := skipSpace_value k a rest ha
  simp only [json.appendString, List.cons_append, List.append_assoc, List.nil_append,
    json.scanMembers, if_true, hq, skipSpace_start ':' _ hsp, hsk, hv, take_value]

theorem GoodFields_nil : json.GoodFields [] [] where
  head := fun h => absurd rfl h
  empty := fun _ => rfl
  scan := fun h => absurd rfl h
  compact := fun _ => rfl
  noNewline := by simp

theorem compact_member (key a t : Bytes)
    (ha : ∀ t, json.compactChars false false (a ++ t) = a ++ json.compactChars false false t) :
    json.compactChars false false (json.appendString key ++ ':' :: (a ++ t)) =
      json.appendString key ++ ':' :: (a ++ json.compactChars false false t) := by
  have hsp : json.isSpace ':' = false := by decide
  rw [compact_appendString]
  simp [json.compactChars, hsp, ha]

theorem GoodFields_last (key : Bytes) (k : json.Kind) (a : Bytes) (ha : json.GoodValue k a) :
    json.GoodFields [⟨key, a, k⟩] (json.appendString key ++ ':' :: a) where
  head := fun _ => ⟨_, rfl⟩
  empty := fun h => by simp at h
  scan := by
    intro _ fuel t hf
    cases fuel with
    | zero => omega
    | succ m =>
      have hlen : (json.escapeString key).length + a.length + 1 < m := by
        simp [json.appendString] at hf
        omega
      have h := scanMembers_member m key k a ('}' :: t) ha hlen
        (Terminated_cons _ _ (Or.inr (Or.inr (Or.inl rfl))))
      have hsp : json.isSpace '}' = false := by decide
      simpa [skipSpace_start '}' t hsp] using h
  compact := by
    intro t
    have := compact_member key a t ha.compact
    simpa using this
  noNewline := by
    have h1 := newline_not_mem_appendString key
    have h2 := ha.noNewline
    simp [h1, h2]

theorem GoodFields_more (key : Bytes) (k : json.Kind) (a : Bytes) (ms : List json.Member)
    (b : Bytes) (ha : json.GoodValue k a) (hb : json.GoodFields ms b) (hms : ms ≠ []) :
    json.GoodFields (⟨key, a, k⟩ :: ms) (json.appendString key ++ ':' :: (a ++ ',' :: b)) where
  head := fun _ => ⟨_, rfl⟩
  empty := fun h => by simp at h
  scan := by
    intro _ fuel t hf
    cases fuel with
    | zero => omega
    | succ m =>
      have hlen : (json.escapeString key).length + a.length + b.length + 4 < m := by
        simp [json.appendString] at hf
        omega
      have h := scanMembers_member m key k a (',' :: (b ++ '}' :: t)) ha (by omega)
        (Terminated_cons _ _ (Or.inl rfl))
      have hsp : json.isSpace ',' = false := by decide
      obtain ⟨r, hr⟩ := hb.head hms
      have hq : json.isSpace '"' = false := by decide
      have hsk : json.skipSpace (b ++ '}' :: t) = b ++ '}' :: t := by
        rw [hr]
        exact skipSpace_start '"' _ hq
      have hsc := hb.scan hms m t (by omega)
      simpa [skipSpace_start ',' _ hsp, hsk, hsc] using h
  compact := by
    intro t
    have hsp : json.isSpace ',' = false := by decide
    have h1 : ∀ u, json.compactChars false false (a ++ ',' :: u) =
        a ++ ',' :: json.compactChars false false u := by
      intro u
      rw [ha.compact]
      simp [json.compactChars, hsp]
    have := compact_member key a (',' :: (b ++ t)) ha.compact
    simp only [List.append_assoc, List.cons_append] at this ⊢
    rw [this]
    simp [json.compactChars, hsp, hb.compact]
  noNewline := by
    have h1 := newline_not_mem_appendString key
    have h2 := ha.noNewline
    have h3 := hb.noNewline
    simp [h1, h2, h3]

theorem fieldMembers_eq_nil (fs : List (Bytes × json.GoValue)) :
    json.fieldMembers fs = [] ↔ fs = [] := by
  cases fs with
  | nil => simp [json.fieldMembers]
  | cons f rest =>
    obtain ⟨k, x⟩ := f
    simp [json.fieldMembers]

mutual
/-- The encoding of a value: the scanner reads it back in full as a value of the
same kind, compaction leaves it unchanged, and it holds no newline. -/
theorem marshalValue_good : ∀ (v : json.GoValue) (out : Bytes),
    json.marshalValue v = some out → json.GoodValue v.kind out
  | .null, out, h => by
    simp only [json.marshalValue, Option.some.injEq] at h
    subst h
    exact GoodValue_null
  | .bool b, out, h => by
    simp only [json.marshalValue, Option.some.injEq] at h
    subst h
    cases b
    · exact GoodValue_false
    · exact GoodValue_true
  | .int i, out, h => by
    simp only [json.marshalValue, Option.some.injEq] at h
    subst h
    exact GoodValue_int i
  | .number lit, out, h => by
    simp only [json.marshalValue] at h
    by_cases hv : json.isValidNumber (if lit = [] then ['0'] else lit) = true
    · simp only [hv, if_true, Option.some.injEq] at h
      subst h
      exact GoodValue_number _ hv
    · simp [hv] at h
  | .str s, out, h => by
    simp only [json.marshalValue, Option.some.injEq] at h
    subst h
    exact GoodValue_str s
  | .slice xs, out, h => by
    simp only [json.marshalValue] at h
    cases hb : json.marshalElems xs with
    | none => simp [hb] at h
    | some b =>
      simp only [hb, Option.some.injEq] at h
      subst h
      exact GoodValue_slice _ b (marshalElems_good xs b hb)
  | .object fs, out, h => by
    simp only [json.marshalValue] at h
    cases hb : json.marshalFields fs with
    | none => simp [hb] at h
    | some b =>
      simp only [hb, Option.some.injEq] at h
      subst h
      exact GoodValue_object _ b (marshalFields_good fs b hb)
  | .unsupported, out, h => by
    simp [json.marshalValue] at h
/-- The encoded elements of an array. -/
theorem marshalElems_good : ∀ (xs : List json.GoValue) (b : Bytes),
    json.marshalElems xs = some b → json.GoodElems (!xs.isEmpty) b
  | [], b, h => by
    simp only [json.marshalElems, Option.some.injEq] at h
    subst h
    exact GoodElems_nil
  | x :: xs, b, h => by
    simp only [json.marshalElems] at h
    cases ha : json.marshalValue x with
    | none => simp [ha] at h
    | some a =>
      cases hr : json.marshalElems xs with
      | none => simp [ha, hr] at h
      | some r =>
        simp only [ha, hr, Option.some.injEq] at h
        subst h
        have hx := marshalValue_good x a ha
        have hxs := marshalElems_good xs r hr
        cases xs with
        | nil => simpa using GoodElems_last _ a hx
        | cons y ys => simpa using GoodElems_more _ a r hx (by simpa using hxs)
/-- The encoded members of an object. -/
theorem marshalFields_good : ∀ (fs : List (Bytes × json.GoValue)) (b : Bytes),
    json.marshalFields fs = some b → json.GoodFields (json.fieldMembers fs) b
  | [], b, h => by
    simp only [json.marshalFields, Option.some.injEq] at h
    subst h
    exact GoodFields_nil
  | (key, x) :: fs, b, h => by
    simp only [json.marshalFields] at h
    cases ha : json.marshalValue x with
    | none => simp [ha] at h
    | some a =>
      cases hr : json.marshalFields fs with
      | none => simp [ha, hr] at h
      | some r =>
        simp only [ha, hr, Option.some.injEq] at h
        subst h
        have hx := marshalValue_good x a ha
        have hfs := marshalFields_good fs r hr
        cases fs with
        | nil => simpa [json.fieldMembers, ha] using GoodFields_last key _ a hx
        | cons f rest =>
          have hne : json.fieldMembers (f :: rest) ≠ [] := by
            simp [fieldMembers_eq_nil]
          simpa [json.fieldMembers, ha] using GoodFields_more key _ a _ r hx hfs hne
end

/-! ## The message codec -/

theorem skipSpace_spaces (ws : Bytes) (h : ∀ c ∈ ws, json.isSpace c = true) :
    json.skipSpace ws = [] := by
  induction ws with
  | nil => rfl
  | cons c r ih =>
    have hc := h c (List.mem_cons_self _ _)
    simp [json.skipSpace, hc, ih (fun d hd => h d (List.mem_cons_of_mem _ hd))]

theorem Terminated_spaces (ws : Bytes) (h : ∀ c ∈ ws, json.isSpace c = true) :
    json.Terminated ws := by
  cases ws with
  | nil => exact Terminated_nil
  | cons c r =>
    exact Terminated_cons c r (Or.inr (Or.inr (Or.inr (h c (List.mem_cons_self _ _)))))

theorem checkValid_good (k : json.Kind) (out ws : Bytes) (hg : json.GoodValue k out)
    (hws : ∀ c ∈ ws, json.isSpace c = true) : json.checkValid (out ++ ws) = true := by
  have hsk := skipSpace_value k out ws hg
  have hscan := hg.scan ((out ++ ws).length + 1) ws (by simp; omega) (Terminated_spaces ws hws)
  unfold json.checkValid
  rw [hsk, hscan]
  simp [skipSpace_spaces ws hws]

theorem compact_good (k : json.Kind) (out : Bytes) (hg : json.GoodValue k out) :
    json.compact out = some out := by
  have hv := checkValid_good k out [] hg (by simp)
  have hc := hg.compact []
  simp only [List.append_nil] at hv hc
  simp [json.compact, hv, hc, json.compactChars]

theorem Marshal_ok_iff (v : json.GoValue) (b : Bytes) :
    json.Marshal v = .ok b ↔ json.marshalValue v = some b := by
  unfold json.Marshal
  cases h : json.marshalValue v <;> simp

theorem objectMembers_brace (rest : Bytes) :
    json.objectMembers ('{' :: rest) =
      match json.skipSpace rest with
      | [] => none
      | c1 :: r1 =>
        if c1 = '}' then some []
        else (json.scanMembers (rest.length + 2) (c1 :: r1)).map (fun p => p.1) := by
  simp only [json.objectMembers, if_true, List.length_cons]

/-- Decoding the encoding of a struct or map, followed by optional whitespace, finds
the members of the value in order, each with the encoding of its value as raw
text. -/
theorem decodeStruct_object (fs : List (Bytes × json.GoValue)) (out ws : Bytes)
    (h : json.marshalValue (json.GoValue.object fs) = some out)
    (hws : ∀ c ∈ ws, json.isSpace c = true) :
    json.decodeStruct (out ++ ws) = json.Decoded.members (json.fieldMembers fs) := by
  have hg := marshalValue_good _ out h
  have hvalid := checkValid_good _ out ws hg hws
  have hsk := skipSpace_value _ out ws hg
  simp only [json.marshalValue] at h
  cases hb : json.marshalFields fs with
  | none => simp [hb] at h
  | some b =>
    simp only [hb, Option.some.injEq] at h
    subst h
    have hf := marshalFields_good fs b hb
    have hbrace : ('{' : Char) ≠ 'n' := by decide
    have hmem : json.objectMembers ('{' :: (b ++ '}' :: ws)) =
        some (json.fieldMembers fs) := by
      rw [objectMembers_brace]
      by_cases hms : json.fieldMembers fs = []
      · have hbe := hf.empty hms
        subst hbe
        have hsp : json.isSpace '}' = false := by decide
        simp only [List.nil_append, skipSpace_start '}' _ hsp, if_true, hms]
      · obtain ⟨r, hr⟩ := hf.head hms
        have hsc := hf.scan hms ((b ++ '}' :: ws).length + 2) ws (by simp; omega)
        have hq : json.isSpace '"' = false := by decide
        have hqb : ('"' : Char) ≠ '}' := by decide
        have hsk2 : json.skipSpace (b ++ '}' :: ws) = '"' :: (r ++ '}' :: ws) := by
          rw [hr]
          exact skipSpace_start '"' _ hq
        rw [hsk2]
        simp only [hqb, if_false]
        rw [hr] at hsc
        simp only [List.cons_append] at hsc
        rw [hr]
        simp only [List.cons_append]
        rw [hsc]
        rfl
    simp only [List.cons_append, List.append_assoc, List.nil_append] at hvalid hsk
    unfold json.decodeStruct
    simp only [List.cons_append, List.append_assoc, List.nil_append]
    rw [hvalid, hsk]
    simp only [if_true, hbrace, if_false, hmem]

theorem Message_fold (t rawT data : Bytes) (k : json.Kind) :
    List.foldl Message.setField ({}, none)
      [⟨"type".toList, rawT, json.Kind.string t⟩, ⟨"data".toList, data, k⟩] =
      ({ Typ := t, Data := some data }, none) := by
  have h1 : json.keyMatches "type".toList "type".toList = true := by decide
  have h2 : json.keyMatches "data".toList "type".toList = false := by decide
  have h3 : json.keyMatches "data".toList "data".toList = true := by decide
  simp only [List.foldl_cons, List.foldl_nil, Message.setField, h1, h2, h3, if_true,
    json.storeString, Bool.false_eq_true, if_false]

/-- The bytes `EncodeMessage` returns are the encoding of the object with the
members `type` and `data`. -/
theorem EncodeMessage_ok (t : MessageType) (v : json.GoValue) (data : Bytes)
    (hv : json.marshalValue v = some data) :
    ∃ enc, EncodeMessage t v = .ok enc ∧
      json.marshalValue (json.GoValue.object
        [("type".toList, json.GoValue.str t), ("data".toList, v)]) = some enc := by
  have hg := marshalValue_good v data hv
  have hc := compact_good _ data hg
  have hm : json.Marshal v = .ok data := (Marshal_ok_iff v data).mpr hv
  have hk1 : json.appendString "type".toList = "\"type\"".toList := by decide
  have hk2 : json.appendString "data".toList = "\"data\"".toList := by decide
  refine ⟨'{' :: ("\"type\":".toList ++ json.appendString t ++ ",\"data\":".toList ++ data
    ++ ['}']), ?_, ?_⟩
  · simp only [EncodeMessage, hm, Message.marshal, Option.getD_some, hc]
  · simp only [json.marshalValue, json.marshalFields, hv, hk1, List.isEmpty_cons,
      List.isEmpty_nil, hk2, Bool.false_eq_true, if_false, if_true]
    simp

theorem EncodeMessage_inv (t : MessageType) (v : json.GoValue) (enc : Bytes)
    (h : EncodeMessage t v = .ok enc) : ∃ data, json.marshalValue v = some data := by
  unfold EncodeMessage json.Marshal at h
  cases hv : json.marshalValue v with
  | none => simp [hv] at h
  | some data => exact ⟨data, rfl⟩

theorem DecodeMessage_encoded (t : MessageType) (v : json.GoValue) (data enc ws : Bytes)
    (hv : json.marshalValue v = some data) (henc : EncodeMessage t v = .ok enc)
    (hws : ∀ c ∈ ws, json.isSpace c = true) :
    DecodeMessage (enc ++ ws) = .ok { Typ := t, Data := some data } := by
  obtain ⟨enc2, h1, h2⟩ := EncodeMessage_ok t v data hv
  rw [henc] at h1
  cases h1
  have hd := decodeStruct_object _ enc ws h2 hws
  have hd2 : json.decodeStruct (enc ++ ws) = json.Decoded.members
      [⟨"type".toList, json.appendString t, json.Kind.string t⟩,
        ⟨"data".toList, data, v.kind⟩] := by
    rw [hd]
    simp only [json.fieldMembers, hv, json.marshalValue, Option.getD_some, json.GoValue.kind]
  unfold DecodeMessage Message.unmarshal
  rw [hd2]
  simp only [Message_fold]

theorem newline_not_mem_encoded (t : MessageType) (v : json.GoValue) (enc : Bytes)
    (henc : EncodeMessage t v = .ok enc) : '\n' ∉ enc := by
  obtain ⟨data, hv⟩ := EncodeMessage_inv t v enc henc
  obtain ⟨enc2, h1, h2⟩ := EncodeMessage_ok t v data hv
  rw [henc] at h1
  cases h1
  exact (marshalValue_good _ enc h2).noNewline

/-- C1: for every message type `t` and every payload `v` that `json.Marshal`
encodes, as `data`, `EncodeMessage t v` succeeds, and `DecodeMessage` of the bytes
it returns succeeds with a message whose type is `t` and whose data is `data`, byte
for byte. -/
theorem EncodeMessage_DecodeMessage_roundtrip (t : MessageType) (v : json.GoValue)
    (data : Bytes) (hv : json.Marshal v = .ok data) :
    ∃ b, EncodeMessage t v = .ok b ∧ DecodeMessage b = .ok { Typ := t, Data := some data } := by
  have hm := (Marshal_ok_iff v data).mp hv
  obtain ⟨enc, h1, _⟩ := EncodeMessage_ok t v data hm
  refine ⟨enc, h1, ?_⟩
  have := DecodeMessage_encoded t v data enc [] hm h1 (by simp)
  simpa using this

theorem EncodeMessage_DecodeMessage_roundtrip_witness :
    (∃ b, EncodeMessage MsgTypePing json.GoValue.null = .ok b ∧
      DecodeMessage b = .ok { Typ := MsgTypePing, Data := some "null".toList }) ∧
    (∃ b, EncodeMessage "a\"b\n".toList
        (ServiceResponse.toGoValue { ServiceID := "X".toList, Providers := ["<p>".toList] }) =
          .ok b ∧
      DecodeMessage b = .ok ⟨"a\"b\n".toList,
        some "\x7b\"service_id\":\"X\",\"providers\":[\"\\u003cp\\u003e\"]\x7d".toList⟩) :=
  ⟨EncodeMessage_DecodeMessage_roundtrip MsgTypePing json.GoValue.null "null".toList rfl,
    EncodeMessage_DecodeMessage_roundtrip "a\"b\n".toList _ _ rfl⟩

theorem byte_cases (P : UInt8 → Prop) (h : ∀ f : Fin 256, P ⟨⟨f⟩⟩) : ∀ b : UInt8, P b := by
  intro b
  exact h b.toBitVec.toFin

set_option maxRecDepth 100000 in
/-- The lead and continuation bytes of a multi-byte UTF-8 sequence are not the byte
`0x0A`. -/
theorem utf8_multibyte_ne (b : UInt8) : b &&& 63 ||| 128 ≠ 10 ∧ b &&& 31 ||| 192 ≠ 10 ∧
    b &&& 15 ||| 224 ≠ 10 ∧ b &&& 7 ||| 240 ≠ 10 := by
  revert b
  apply byte_cases
  decide

/-- In UTF-8 the byte `0x0A` occurs only as the encoding of the newline character. -/
theorem utf8EncodeChar_newline (c : Char) (h : (10 : UInt8) ∈ String.utf8EncodeChar c) :
    c = '\n' := by
  unfold String.utf8EncodeChar at h
  simp only at h
  split_ifs at h with h1 h2 h3
  · simp only [List.mem_singleton] at h
    have h4 : c.val.toNat ≤ 127 := h1
    have h5 := congrArg UInt8.toNat h
    simp [UInt32.toUInt8, Nat.toUInt8, UInt8.ofNat, UInt8.toNat] at h5
    have h6 : c.toNat = 10 := by
      show c.val.toNat = 10
      omega
    rw [char_eq_iff, h6]
    rfl
  · simp only [List.mem_cons, List.mem_singleton, List.not_mem_nil, or_false] at h
    rcases h with h | h
    · exact absurd h.symm (utf8_multibyte_ne _).2.1
    · exact absurd h.symm (utf8_multibyte_ne _).1
  · simp only [List.mem_cons, List.mem_singleton, List.not_mem_nil, or_false] at h
    rcases h with h | h | h
    · exact absurd h.symm (utf8_multibyte_ne _).2.2.1
    · exact absurd h.symm (utf8_multibyte_ne _).1
    · exact absurd h.symm (utf8_multibyte_ne _).1
  · simp only [List.mem_cons, List.mem_singleton, List.not_mem_nil, or_false] at h
    rcases h with h | h | h | h
    · exact absurd h.symm (utf8_multibyte_ne _).2.2.2
    · exact absurd h.symm (utf8_multibyte_ne _).1
    · exact absurd h.symm (utf8_multibyte_ne _).1
    · exact absurd h.symm (utf8_multibyte_ne _).1

theorem utf8_no_newline (s : Bytes) (h : '\n' ∉ s) : (10 : UInt8) ∉ utf8 s := by
  induction s with
  | nil => simp [utf8]
  | cons c cs ih =>
    have hc : c ≠ '\n' := fun e => h (e ▸ List.mem_cons_self _ _)
    have hcs : '\n' ∉ cs := fun m => h (List.mem_cons_of_mem _ m)
    simp only [utf8, List.mem_append, not_or]
    exact ⟨fun hm => hc (utf8EncodeChar_newline c hm), ih hcs⟩

/-- C9: the bytes `EncodeMessage` returns hold no newline, whatever the type and the
payload hold: no newline character, and so no byte `0x0A` in their UTF-8 encoding.
So `ReadBytes`, reading what `SendMessage` writes (those bytes and one newline)
possibly followed by more of the stream, returns exactly that record and leaves the
rest, and `DecodeMessage` of the record yields the type `t` and the encoding of the
payload. -/
theorem EncodeMessage_no_newline (t : MessageType) (v : json.GoValue) (enc rest : Bytes)
    (henc : EncodeMessage t v = .ok enc) :
    '\n' ∉ enc ∧ (10 : UInt8) ∉ utf8 enc ∧
    ReadBytes '\n' (enc ++ '\n' :: rest) = some (enc ++ ['\n'], rest) ∧
    ∃ data, json.Marshal v = .ok data ∧
      DecodeMessage (enc ++ ['\n']) = .ok { Typ := t, Data := some data } := by
  have hn := newline_not_mem_encoded t v enc henc
  obtain ⟨data, hv⟩ := EncodeMessage_inv t v enc henc
  refine ⟨hn, utf8_no_newline enc hn, ReadBytes_record '\n' enc rest hn, data,
    (Marshal_ok_iff v data).mpr hv, ?_⟩
  exact DecodeMessage_encoded t v data enc ['\n'] hv henc (by decide)

theorem EncodeMessage_no_newline_witness :
    '\n' ∉ exampleNewlines ∧ (10 : UInt8) ∉ utf8 exampleNewlines ∧
    ReadBytes '\n' (exampleNewlines ++ '\n' :: []) = some (exampleNewlines ++ ['\n'], []) ∧
    ∃ data, json.Marshal (json.GoValue.slice [json.GoValue.str "x\ny".toList]) = .ok data ∧
      DecodeMessage (exampleNewlines ++ ['\n']) =
        .ok { Typ := "a\nb".toList, Data := some data } :=
  EncodeMessage_no_newline "a\nb".toList (json.GoValue.slice [json.GoValue.str "x\ny".toList])
    exampleNewlines [] rfl

/-- C7: for a payload `json.Marshal` encodes, `EncodeMessage` succeeds, with bytes
`enc`, and `SendMessage` behaves as follows.  When `NewStream` fails, it makes no
other call, so nothing is written, and returns the error of `NewStream`.  When the
stream opens, it writes once, exactly `enc` followed by one newline, then closes the
stream, and returns what `Write` returned: nil when the write succeeds, the write
error otherwise. -/
theorem Protocol.SendMessage_framing (host : PeerID → StreamOutcome) (dest : PeerID)
    (t : MessageType) (v : json.GoValue) (data : Bytes) (hv : json.Marshal v = .ok data) :
    ∃ enc, EncodeMessage t v = .ok enc ∧
      (∀ e, (host dest).openErr = some e →
        Protocol.SendMessage host dest t v = ([NetCall.newStream dest], some e)) ∧
      ((host dest).openErr = none →
        Protocol.SendMessage host dest t v =
          ([NetCall.newStream dest, NetCall.write (enc ++ ['\n']), NetCall.close],
            (host dest).writeErr)) := by
  obtain ⟨enc, h1, _⟩ := EncodeMessage_ok t v data ((Marshal_ok_iff v data).mp hv)
  refine ⟨enc, h1, ?_, ?_⟩
  · intro e he
    simp [Protocol.SendMessage, he]
  · intro he
    simp [Protocol.SendMessage, he, h1]

theorem Protocol.SendMessage_framing_witness :
    ∃ enc, EncodeMessage MsgTypePong examplePong = .ok enc ∧
      (∀ e, (exampleHost "peer".toList).openErr = some e →
        Protocol.SendMessage exampleHost "peer".toList MsgTypePong examplePong =
          ([NetCall.newStream "peer".toList], some e)) ∧
      ((exampleHost "peer".toList).openErr = none →
        Protocol.SendMessage exampleHost "peer".toList MsgTypePong examplePong =
          ([NetCall.newStream "peer".toList, NetCall.write (enc ++ ['\n']), NetCall.close],
            (exampleHost "peer".toList).writeErr)) :=
  Protocol.SendMessage_framing exampleHost "peer".toList MsgTypePong examplePong
    "\x7b\"ok\":\"true\"\x7d".toList rfl

theorem ReadBytes_length (delim : Char) :
    ∀ (s line rest : Bytes), ReadBytes delim s = some (line, rest) → rest.length < s.length := by
  intro s
  induction s with
  | nil => intro line rest h; simp [ReadBytes] at h
  | cons c cs ih =>
    intro line rest h
    by_cases hc : c = delim
    · simp only [ReadBytes, hc, if_true, Option.some.injEq, Prod.mk.injEq] at h
      rw [← h.2]
      simp
    · simp only [ReadBytes, hc, if_false] at h
      cases hr : ReadBytes delim cs with
      | none => simp [hr] at h
      | some pr =>
        obtain ⟨l2, r2⟩ := pr
        simp only [hr, Option.map_some', Option.some.injEq, Prod.mk.injEq] at h
        have := ih l2 r2 hr
        rw [← h.2]
        simp only [List.length_cons]
        omega

/-- The read loop does not depend on its bound, once the bound exceeds the length
of the stream. -/
theorem handleStreamLoop_fuel (p : Protocol) (sender : PeerID) (final : Option Error) :
    ∀ (f1 f2 : Nat) (stream : Bytes), stream.length < f1 → stream.length < f2 →
      handleStreamLoop p sender final f1 stream = handleStreamLoop p sender final f2 stream := by
  intro f1
  induction f1 with
  | zero => intro f2 stream h1; omega
  | succ n ih =>
    intro f2 stream h1 h2
    cases f2 with
    | zero => omega
    | succ m =>
      simp only [handleStreamLoop]
      cases hr : ReadBytes '\n' stream with
      | none => rfl
      | some pr =>
        obtain ⟨line, rest⟩ := pr
        have hlen := ReadBytes_length '\n' stream line rest hr
        have hrec := ih m rest (by omega) (by omega)
        simp only [hrec]

/-- C6: a record that `Unmarshal` reads as the object with the members `type`, a
string `s`, and `data`, with raw text `d`, decodes to the message with type `s` and
data `d`, whatever `s` is: no set of known types is consulted.  When no handler is
registered for `s`, `handleStream` starts no handler for the record, logs the type,
and goes on with the rest of the stream. -/
theorem DecodeMessage_unknown_type (p : Protocol) (sender : PeerID) (final : Option Error)
    (body rest s d rawT : Bytes) (k : json.Kind)
    (henv : json.decodeStruct (body ++ ['\n']) = json.Decoded.members
      [⟨"type".toList, rawT, json.Kind.string s⟩, ⟨"data".toList, d, k⟩])
    (hbody : '\n' ∉ body) (hnone : p.handler s = none) :
    DecodeMessage (body ++ ['\n']) = .ok { Typ := s, Data := some d } ∧
    p.handleStream sender (body ++ '\n' :: rest) final =
      StreamEvent.debugNoHandler s :: p.handleStream sender rest final := by
  have hdec : DecodeMessage (body ++ ['\n']) = .ok { Typ := s, Data := some d } := by
    unfold DecodeMessage Message.unmarshal
    rw [henv]
    simp only [Message_fold]
  refine ⟨hdec, ?_⟩
  have hread := ReadBytes_record '\n' body rest hbody
  have hfuel := handleStreamLoop_fuel p sender final (body ++ '\n' :: rest).length
    (rest.length + 1) rest (by simp; omega) (by omega)
  simp only [Protocol.handleStream, handleStreamLoop, hread, hdec, hnone, hfuel]

theorem DecodeMessage_unknown_type_witness :
    DecodeMessage ("\x7b \"type\": \"gossip\", \"data\": [1, \x7b\"a\": \"b\"\x7d] \x7d".toList
      ++ ['\n']) = .ok { Typ := "gossip".toList, Data := some "[1, \x7b\"a\": \"b\"\x7d]".toList } ∧
    exampleProtocol.handleStream "peer".toList
      ("\x7b \"type\": \"gossip\", \"data\": [1, \x7b\"a\": \"b\"\x7d] \x7d".toList ++
        '\n' :: "\x7b\"type\":\"ping\"\x7d\n".toList) none =
      StreamEvent.debugNoHandler "gossip".toList ::
        exampleProtocol.handleStream "peer".toList "\x7b\"type\":\"ping\"\x7d\n".toList none :=
  DecodeMessage_unknown_type exampleProtocol "peer".toList none
    "\x7b \"type\": \"gossip\", \"data\": [1, \x7b\"a\": \"b\"\x7d] \x7d".toList
    "\x7b\"type\":\"ping\"\x7d\n".toList "gossip".toList "[1, \x7b\"a\": \"b\"\x7d]".toList
    "\"gossip\"".toList json.Kind.array (by decide) (by decide) rfl

/-! ## The service query handler -/

theorem ServiceQuery_unmarshal_encoded (x data : Bytes)
    (h : json.Marshal (ServiceQuery.toGoValue { ServiceID := x }) = .ok data) :
    ServiceQuery.unmarshal data = ({ ServiceID := x }, none) := by
  have hm := (Marshal_ok_iff _ data).mp h
  have hd := decodeStruct_object _ data [] hm (by simp)
  have hk : json.keyMatches "service_id".toList "service_id".toList = true := by decide
  simp only [List.append_nil] at hd
  unfold ServiceQuery.unmarshal
  rw [hd]
  simp only [json.fieldMembers, List.foldl_cons, List.foldl_nil, ServiceQuery.setField, hk,
    if_true, json.GoValue.kind, json.storeString]

/-- C4, as the code has it: for a `service_query` message whose data is the encoding
of the query for service `x`, the handler makes one lookup, with the key
`"service:" + x`, and then one call of `SendMessage`, to the sender, with the type
`service_response` and a response whose service id is `x`.  When the lookup returns
no value, the providers of that response are one empty string. -/
theorem P2PService.serviceQueryHandler_missing (p : P2PService) (sender : PeerID)
    (msg : Message) (x data : Bytes)
    (hq : json.Marshal (ServiceQuery.toGoValue { ServiceID := x }) = .ok data)
    (hmsg : msg.Data = some data)
    (hmiss : (p.getValue ("service:".toList ++ x)).1 = []) :
    p.serviceQueryHandler sender msg =
      [Action.getValue ("service:".toList ++ x),
        Action.sendMessage sender MsgTypeServiceResponse
          (ServiceResponse.toGoValue { ServiceID := x, Providers := [[]] })] := by
  have hu := ServiceQuery_unmarshal_encoded x data hq
  simp only [P2PService.serviceQueryHandler, P2PService.serviceQueryResponse, hmsg,
    Option.getD_some, hu, hmiss]

theorem P2PService.serviceQueryHandler_missing_witness :
    exampleMissing.serviceQueryHandler "peer".toList exampleQuery =
      [Action.getValue "service:X".toList,
        Action.sendMessage "peer".toList MsgTypeServiceResponse
          (ServiceResponse.toGoValue { ServiceID := "X".toList, Providers := [[]] })] :=
  P2PService.serviceQueryHandler_missing exampleMissing "peer".toList exampleQuery "X".toList
    "\x7b\"service_id\":\"X\"\x7d".toList rfl rfl rfl

/-- C4 as stated does not hold: for the query for service `X` and a directory that
holds no record, the handler does not send a response with an empty provider list;
the response it sends has one provider, the empty string. -/
theorem P2PService.serviceQueryHandler_not_empty :
    ¬ ∃ r : ServiceResponse, r.Providers.length = 0 ∧
      exampleMissing.serviceQueryHandler "peer".toList exampleQuery =
        [Action.getValue "service:X".toList,
          Action.sendMessage "peer".toList MsgTypeServiceResponse r.toGoValue] := by
  rintro ⟨r, hlen, h⟩
  have h2 : exampleMissing.serviceQueryHandler "peer".toList exampleQuery =
      [Action.getValue "service:X".toList,
        Action.sendMessage "peer".toList MsgTypeServiceResponse
          (ServiceResponse.toGoValue { ServiceID := "X".toList, Providers := [[]] })] := rfl
  rw [h2] at h
  simp only [ServiceResponse.toGoValue, List.cons.injEq, Action.sendMessage.injEq,
    json.GoValue.object.injEq, Prod.mk.injEq, json.GoValue.slice.injEq, true_and,
    and_true, List.map_cons, List.map_nil] at h
  have h3 := congrArg List.length h.2
  simp only [List.length_cons, List.length_nil, List.length_map] at h3
  omega

end ESIaaS
